import Mathlib

/-!
# Verification of the `vectoria` HNSW vector index

Shallow embedding of the core of the `vectoria` repository:

* `src/lib/hnsw.ts`   — the HNSW graph engine (`addPoint`, `search`,
  `searchLayer`, `selectNeighbors`, `toJSON`, `fromJSON`);
* `src/lib/migration.ts` — the re-embedding migration controller
  (`MigrationManager.start` / `stop`);
* the batch-update step of `migration.ts` together with
  `Vectoria.indexDocuments` from `src/index.ts`.

Modelling conventions:

* JS numbers that carry similarity scores and scalar parameters are
  modelled as rationals (`ℚ`); counts and indices as `Nat`.
* The similarity function (`HNSWIndex.dist`, cosine over `Float32Array`)
  is kept abstract: every definition is parametric in
  `dist : α → α → ℚ` over an abstract vector type `α`.  The engine only
  ever compares scores, so all control flow is captured exactly.
* The JS `Map` of nodes is an association list in insertion order
  (`Map.set` on a fresh key appends, on an existing key overwrites in
  place — mirrored by `Graph.update` / `mapSet`).
* JS exceptions are modelled with `Except`:
  - `Err.duplicateId` is the explicit `throw` in `addPoint`;
  - `Err.typeError` is the `TypeError` raised when a `.get(id)!` result
    that is actually `undefined` is dereferenced (dangling neighbor id),
    or when `neighbors[l]` is `undefined`;
  - `Err.fuelExhausted` is an artifact of the embedding: the JS `while`
    loops are given explicit fuel.  Fuel sufficiency is proved where a
    claim needs a guaranteed `.ok`, so `.ok` results coincide with the
    JS behavior.
* `addPoint` mutates the node map before it can throw on a dangling id,
  so its errors carry the graph state at the time of the throw.
-/

deriving instance DecidableEq for Except

namespace Vectoria

/-- An `{id, score}` record as used by `searchLayer` / `search`. -/
structure Cand where
  id : String
  score : ℚ
deriving DecidableEq, Repr

/-- The error kinds `hnsw.ts` can raise: the explicit duplicate-id
`throw` in `addPoint`, the implicit `TypeError` from dereferencing a
missing map entry, and the fuel artifact of the embedding. -/
inductive Err where
  | duplicateId : Err
  | typeError : Err
  | fuelExhausted : Err
deriving DecidableEq, Repr

/-- A graph node (`interface Node` in `hnsw.ts`): `neighbors` has one
entry per layer `0 … level`. -/
structure Node (α : Type) where
  id : String
  vector : α
  level : Nat
  neighbors : List (List String)
deriving DecidableEq, Repr

/-- The scalar parameters of `HNSWIndex` fixed by its constructor. -/
structure Params where
  M : Nat
  efConstruction : Nat
  efSearch : Nat
  levelMultiplier : ℚ
deriving DecidableEq, Repr

/-- The mutable state of an `HNSWIndex` instance. -/
structure Graph (α : Type) where
  params : Params
  maxLevel : Nat
  entryPointId : Option String
  nodes : List (Node α)
deriving DecidableEq, Repr

/-- `this.nodes.get id` — first association-list hit. -/
def Graph.find? {α : Type} (g : Graph α) (id : String) : Option (Node α) :=
  g.nodes.find? (fun n => n.id = id)

/-- The ids present in the node map, in insertion order. -/
def Graph.nodeIds {α : Type} (g : Graph α) : List String :=
  g.nodes.map (fun n => n.id)

/-- In-place mutation of the node stored under `id` (JS object mutation
through the shared reference held by the `Map`). -/
def Graph.update {α : Type} (g : Graph α) (id : String)
    (f : Node α → Node α) : Graph α :=
  { g with nodes := g.nodes.map (fun n => if n.id = id then f n else n) }

/-! ## Sorting by descending score

`hnsw.ts` sorts its candidate and result arrays with
`(a, b) => b.score - a.score`.  We model this with an insertion sort;
the claims under verification never depend on tie order. -/

/-- Insert a candidate into a descending-sorted list. -/
def insertDesc (c : Cand) : List Cand → List Cand
  | [] => [c]
  | x :: xs => if c.score ≤ x.score then x :: insertDesc c xs else c :: x :: xs

/-- `array.sort((a, b) => b.score - a.score)`. -/
def sortDesc (l : List Cand) : List Cand :=
  l.foldr insertDesc []

theorem insertDesc_perm (c : Cand) (l : List Cand) :
    (insertDesc c l).Perm (c :: l) := by
  induction l with
  | nil => simp [insertDesc]
  | cons x xs ih =>
    by_cases h : c.score ≤ x.score
    · simpa [insertDesc, h] using ((ih.cons x).trans (List.Perm.swap c x xs))
    · simp [insertDesc, h]

theorem sortDesc_perm (l : List Cand) : (sortDesc l).Perm l := by
  induction l with
  | nil => simp [sortDesc]
  | cons x xs ih =>
    exact ((insertDesc_perm x (sortDesc xs)).trans (ih.cons x))

/-- Non-increasing scores, as a pairwise relation. -/
def ScoresDesc (l : List Cand) : Prop :=
  l.Pairwise (fun a b => b.score ≤ a.score)

theorem insertDesc_sorted {c : Cand} {l : List Cand} (h : ScoresDesc l) :
    ScoresDesc (insertDesc c l) := by
  induction l with
  | nil => simp [insertDesc, ScoresDesc]
  | cons x xs ih =>
    rcases (List.pairwise_cons.mp h) with ⟨hx, hxs⟩
    by_cases hc : c.score ≤ x.score
    · have hins := ih hxs
      have hmem : ∀ b ∈ insertDesc c xs, b.score ≤ x.score := by
        intro b hb
        have hbm := (insertDesc_perm c xs).mem_iff.mp hb
        rcases List.mem_cons.mp hbm with hbm | hbm
        · simpa [hbm] using hc
        · exact hx b hbm
      simpa [insertDesc, hc, ScoresDesc] using List.pairwise_cons.mpr ⟨hmem, hins⟩
    · have hcx : x.score ≤ c.score := le_of_lt (lt_of_not_le hc)
      have hmem : ∀ b ∈ x :: xs, b.score ≤ c.score := by
        intro b hb
        rcases List.mem_cons.mp hb with hb | hb
        · simpa [hb] using hcx
        · exact le_trans (hx b hb) hcx
      simpa [insertDesc, hc, ScoresDesc] using List.pairwise_cons.mpr ⟨hmem, h⟩

theorem sortDesc_sorted (l : List Cand) : ScoresDesc (sortDesc l) := by
  induction l with
  | nil => simp [sortDesc, ScoresDesc]
  | cons x xs ih => exact insertDesc_sorted ih

theorem sortDesc_length (l : List Cand) : (sortDesc l).length = l.length :=
  (sortDesc_perm l).length_eq

theorem sortDesc_mem {c : Cand} {l : List Cand} :
    c ∈ sortDesc l ↔ c ∈ l :=
  (sortDesc_perm l).mem_iff

/-! ## `searchLayer` (hnsw.ts lines 174–227)

The `while (C.length > 0)` loop is given explicit fuel; the inner
`for (const neighborId of neighbors)` loop is `processNeighbors`.
`f` (the worst member of `W`) is computed once per outer iteration and
is *not* refreshed while neighbors are processed, exactly as in the
source. -/

variable {α : Type} (dist : α → α → ℚ)

/-- The neighbor loop of `searchLayer`: for each unvisited neighbor id,
mark it visited, look it up (`.get(id)!` — a missing entry raises), and
push it into `C` and `W` when `W.length < ef || score > f.score`,
evicting the worst of `W` when it exceeds `ef`. -/
def processNeighbors (g : Graph α) (q : α) (ef : Nat) (fscore : ℚ) :
    (nbrs vis : List String) → (C W : List Cand) →
    Except Err (List String × List Cand × List Cand)
  | [], vis, C, W => .ok (vis, C, W)
  | n :: rest, vis, C, W =>
    if n ∈ vis then processNeighbors g q ef fscore rest vis C W
    else
      match g.find? n with
      | none => .error .typeError
      | some nn =>
        let s := dist q nn.vector
        if W.length < ef ∨ fscore < s then
          let W1 := sortDesc (W ++ [⟨n, s⟩])
          let W2 := if ef < W1.length then W1.dropLast else W1
          processNeighbors g q ef fscore rest (n :: vis) (C ++ [⟨n, s⟩]) W2
        else processNeighbors g q ef fscore rest (n :: vis) C W

/-- The outer `while (C.length > 0)` loop of `searchLayer`. -/
def searchLayerLoop (g : Graph α) (q : α) (ef level : Nat) :
    (fuel : Nat) → (vis : List String) → (C W : List Cand) →
    Except Err (List Cand)
  | 0, _, _, _ => .error .fuelExhausted
  | fuel + 1, vis, C, W =>
    match sortDesc C with
    | [] => .ok W
    | c :: Crest =>
      let Ws := sortDesc W
      match Ws.getLast? with
      | none => .error .typeError
      | some f =>
        if c.score < f.score ∧ ef ≤ Ws.length then .ok Ws
        else
          match g.find? c.id with
          | none => .error .typeError
          | some cNode =>
            match cNode.neighbors[level]? with
            | none => .error .typeError
            | some nbrs =>
              match processNeighbors dist g q ef f.score nbrs vis Crest Ws with
              | .error e => .error e
              | .ok (vis2, C2, W2) => searchLayerLoop g q ef level fuel vis2 C2 W2

/-- `searchLayer(query, entry, ef, level)`. -/
def searchLayer (g : Graph α) (q : α) (entry : Node α) (ef level : Nat) :
    Except Err (List Cand) :=
  let c0 : Cand := ⟨entry.id, dist q entry.vector⟩
  searchLayerLoop dist g q ef level (g.nodes.length + 2) [entry.id] [c0] [c0]

/-! ## The greedy hill-climb (hnsw.ts lines 60–84 and 141–165) -/

/-- One scan of `currObj.neighbors[l]`: the best strictly-improving
neighbor, if any.  A dangling id raises, as `neighbor.vector` would. -/
def bestNeighbor (g : Graph α) (q : α) :
    (nbrs : List String) → (best : ℚ) → Except Err (Option (Node α × ℚ))
  | [], _ => .ok none
  | nId :: rest, best =>
    match g.find? nId with
    | none => .error .typeError
    | some n =>
      let d := dist q n.vector
      if best < d then
        match bestNeighbor g q rest d with
        | .error e => .error e
        | .ok none => .ok (some (n, d))
        | .ok (some r) => .ok (some r)
      else bestNeighbor g q rest best

/-- The `while (changed)` loop of the hill-climb on one layer. -/
def climbLoop (g : Graph α) (q : α) (l : Nat) :
    Nat → Node α × ℚ → Except Err (Node α × ℚ)
  | 0, _ => .error .fuelExhausted
  | fuel + 1, (cur, curScore) =>
    match cur.neighbors[l]? with
    | none => .error .typeError
    | some nbrs =>
      match bestNeighbor dist g q nbrs curScore with
      | .error e => .error e
      | .ok none => .ok (cur, curScore)
      | .ok (some (n, d)) => climbLoop g q l fuel (n, d)

/-- `[hi, hi-1, …, lo]` (empty when `hi < lo`): the layer ranges of the
`for (let l = …; l >= …; l--)` loops. -/
def layersDown (hi lo : Nat) : List Nat :=
  (List.range' lo (hi + 1 - lo)).reverse

/-- The hill-climb over a decreasing range of layers. -/
def climbLayers (g : Graph α) (q : α) :
    List Nat → Node α × ℚ → Except Err (Node α × ℚ)
  | [], cur => .ok cur
  | l :: rest, cur =>
    match climbLoop dist g q l (g.nodes.length + 1) cur with
    | .error e => .error e
    | .ok cur2 => climbLayers g q rest cur2

/-! ## `search` (hnsw.ts lines 133–172) -/

/-- `search(query, k)`: empty on a null entry point, otherwise greedy
descent from `maxLevel` to layer 1, then `searchLayer` with `efSearch`
on layer 0, returning the top `k`. -/
def search (g : Graph α) (q : α) (k : Nat) : Except Err (List Cand) :=
  match g.entryPointId with
  | none => .ok []
  | some eid =>
    match g.find? eid with
    | none => .error .typeError
    | some ep =>
      match climbLayers dist g q (layersDown g.maxLevel 1) (ep, dist q ep.vector) with
      | .error e => .error e
      | .ok cur =>
        match searchLayer dist g q cur.1 g.params.efSearch 0 with
        | .error e => .error e
        | .ok W => .ok (W.take k)

/-! ## Insertion (hnsw.ts lines 31–127) -/

/-- `selectNeighbors(candidates, M)`: the `M` highest-similarity
candidates. -/
def selectNeighbors (cands : List Cand) (M : Nat) : List Cand :=
  (sortDesc cands).take M

/-- `neighbor.neighbors[l].map(nid => ({id: nid, score: dist(...)}))`
during the shrink step; a dangling id raises. -/
def evalCandidates (g : Graph α) (base : α) :
    List String → Except Err (List Cand)
  | [] => .ok []
  | nId :: rest =>
    match g.find? nId with
    | none => .error .typeError
    | some n =>
      match evalCandidates g base rest with
      | .error e => .error e
      | .ok cs => .ok (⟨nId, dist base n.vector⟩ :: cs)

/-- `touchedNodes.add x` on the JS `Set` (insertion-ordered, dedup). -/
def addTouched (t : List String) (x : String) : List String :=
  if x ∈ t then t else t ++ [x]

/-- Step 4c of insertion: push the new id onto each selected neighbor's
layer-`l` list and prune back to the best `M` when it overflows.
Errors carry the graph state at the time of the throw. -/
def connectNeighbors (id : String) (l : Nat) :
    (nbrs : List Cand) → Graph α → List String →
    Except (Err × Graph α) (Graph α × List String)
  | [], g, touched => .ok (g, touched)
  | nb :: rest, g, touched =>
    match g.find? nb.id with
    | none => .error (.typeError, g)
    | some neighbor =>
      match neighbor.neighbors[l]? with
      | none => .error (.typeError, g)
      | some lst =>
        let lst2 := lst ++ [id]
        let g1 := g.update nb.id
          (fun n => { n with neighbors := n.neighbors.set l lst2 })
        let touched2 := addTouched touched nb.id
        if g.params.M < lst2.length then
          match evalCandidates dist g1 neighbor.vector lst2 with
          | .error e => .error (e, g1)
          | .ok cands =>
            let keep := (selectNeighbors cands g.params.M).map (fun c => c.id)
            let g2 := g1.update nb.id
              (fun n => { n with neighbors := n.neighbors.set l keep })
            connectNeighbors id l rest g2 touched2
        else connectNeighbors id l rest g1 touched2

/-- Step 4 of insertion, over layers `min(level, maxLevel) … 0`.
`curr` is `currObj`; the source's `this.nodes.get(W[0].id)!` does not
raise by itself, so a missing lookup is carried as `none` and raises
only when the next layer dereferences it. -/
def connectLayers (svec : α) (id : String) :
    (layers : List Nat) → Graph α → Option (Node α) → List String →
    Except (Err × Graph α) (Graph α × List String)
  | [], g, _, touched => .ok (g, touched)
  | l :: rest, g, curr, touched =>
    match curr with
    | none => .error (.typeError, g)
    | some cnode =>
      match searchLayer dist g svec cnode g.params.efConstruction l with
      | .error e => .error (e, g)
      | .ok W =>
        let nbrs := selectNeighbors W g.params.M
        let g1 := g.update id
          (fun n => { n with neighbors := n.neighbors.set l (nbrs.map (fun c => c.id)) })
        match connectNeighbors dist id l nbrs g1 touched with
        | .error eg => .error eg
        | .ok (g2, touched2) =>
          let nextCurr := match W.head? with
            | none => some cnode
            | some w0 => g2.find? w0.id
          connectLayers svec id rest g2 nextCurr touched2

/-- `addPoint(id, vector)` with the randomly drawn `level` made an
explicit input.  Returns the new graph and the touched-node ids, or the
error together with the graph state at the time of the throw (the new
node is inserted into the map *before* any traversal can raise). -/
def addPoint (g : Graph α) (id : String) (vec : α) (level : Nat) :
    Except (Err × Graph α) (Graph α × List String) :=
  if (g.find? id).isSome then .error (.duplicateId, g)
  else
    let newNode : Node α := ⟨id, vec, level, List.replicate (level + 1) []⟩
    let g1 : Graph α := { g with nodes := g.nodes ++ [newNode] }
    match g.entryPointId with
    | none => .ok ({ g1 with entryPointId := some id, maxLevel := level }, [id])
    | some eid =>
      match g1.find? eid with
      | none => .error (.typeError, g1)
      | some ep =>
        match climbLayers dist g1 vec (layersDown g1.maxLevel (level + 1))
            (ep, dist vec ep.vector) with
        | .error e => .error (e, g1)
        | .ok cur =>
          match connectLayers dist vec id (layersDown (min level g1.maxLevel) 0)
              g1 (some cur.1) [id] with
          | .error eg => .error eg
          | .ok (g2, touched) =>
            if g1.maxLevel < level then
              .ok ({ g2 with maxLevel := level, entryPointId := some id }, touched)
            else .ok (g2, touched)

/-! ## Serialization (hnsw.ts lines 260–296) -/

/-- One entry of `toJSON().nodes` (the `Float32Array → Array`
conversion is lossless, hence the identity on the abstract vector). -/
structure NodeJson (α : Type) where
  id : String
  vector : α
  level : Nat
  neighbors : List (List String)
deriving DecidableEq, Repr

/-- The value returned by `HNSWIndex.toJSON()`. -/
structure GraphJson (α : Type) where
  M : Nat
  efConstruction : Nat
  efSearch : Nat
  levelMultiplier : ℚ
  maxLevel : Nat
  entryPointId : Option String
  nodes : List (NodeJson α)
deriving DecidableEq, Repr

/-- `toJSON()`. -/
def toJSON (g : Graph α) : GraphJson α :=
  ⟨g.params.M, g.params.efConstruction, g.params.efSearch,
   g.params.levelMultiplier, g.maxLevel, g.entryPointId,
   g.nodes.map (fun n => ⟨n.id, n.vector, n.level, n.neighbors⟩)⟩

/-- The `HNSWIndex` constructor: each `config.x || default` is `x` when
non-zero, the default otherwise.  `1 / Math.log(this.M)` is abstracted
as `invLog` applied to the already-defaulted `M`. -/
def mkParams (invLog : Nat → ℚ) (M efC efS : Nat) (lm : ℚ) : Params :=
  let M2 := if M = 0 then 16 else M
  { M := M2
    efConstruction := if efC = 0 then 200 else efC
    efSearch := if efS = 0 then 200 else efS
    levelMultiplier := if lm = 0 then invLog M2 else lm }

/-- `Map.set`: overwrite in place when the key exists, append
otherwise. -/
def mapSet (ns : List (Node α)) (n : Node α) : List (Node α) :=
  if ns.any (fun m => m.id = n.id) then
    ns.map (fun m => if m.id = n.id then n else m)
  else ns ++ [n]

/-- `HNSWIndex.fromJSON(json)`. -/
def fromJSON (invLog : Nat → ℚ) (j : GraphJson α) : Graph α :=
  { params := mkParams invLog j.M j.efConstruction j.efSearch j.levelMultiplier
    maxLevel := j.maxLevel
    entryPointId := j.entryPointId
    nodes := j.nodes.foldl
      (fun ns nd => mapSet ns ⟨nd.id, nd.vector, nd.level, nd.neighbors⟩) [] }

/-! ## Migration (migration.ts) -/

/-- A stored document (`VectorDocument` in `types.ts`); the embedding
vector and metadata types are abstract. -/
structure Doc (Emb Meta : Type) where
  id : String
  text : String
  metadata : Meta
  embedding : Option Emb
  createdAt : Nat
deriving DecidableEq, Repr

/-- `MigrationStatus` (the `error` field is irrelevant to the claims
settled here and the abstract embedder is total, so it is omitted). -/
structure MigStatus where
  total : Nat
  processed : Nat
  lastProcessedId : Option String
  isComplete : Bool
deriving DecidableEq, Repr

/-- `batch.map((doc, idx) => ({...doc, embedding: newEmbeddings[idx]}))`:
the spread copies every field and only `embedding` is overwritten (with
`undefined` when `newEmbeddings` is too short). -/
def updateBatch {Emb Meta : Type} :
    List (Doc Emb Meta) → List Emb → List (Doc Emb Meta)
  | [], _ => []
  | d :: ds, [] => { d with embedding := none } :: updateBatch ds []
  | d :: ds, e :: es => { d with embedding := some e } :: updateBatch ds es

/-- `batch[batch.length - 1].id` — the last id of a batch (batches are
non-empty whenever the batch size is positive, as with the default). -/
def lastIdOr {Emb Meta : Type} (batch : List (Doc Emb Meta))
    (prev : Option String) : Option String :=
  match batch.getLast? with
  | some d => some d.id
  | none => prev

/-- The batch loop of `MigrationManager.start`.  `stop b` is the value
of the `shouldStop` flag as observed at the check preceding batch `b`
(and, for the index one past the last check, at the final
`if (!this.shouldStop)`).  `pc` is the local `processedCount`; `acc`
accumulates the documents handed to `indexDocuments`.  Returns the
status, the accumulated documents and the batch index at exit.  Fuel is
an embedding artifact; `docs.length + 1` is sufficient whenever the
batch size is positive (a zero batch size does not terminate in the
source either). -/
def migLoop {Emb Meta : Type} (embedBatch : List String → List Emb)
    (B : Nat) (stop : Nat → Bool) :
    (fuel : Nat) → (remaining : List (Doc Emb Meta)) → (b pc : Nat) →
    MigStatus → List (Doc Emb Meta) →
    MigStatus × List (Doc Emb Meta) × Nat
  | 0, _, b, _, st, acc => (st, acc, b)
  | _ + 1, [], b, _, st, acc => (st, acc, b)
  | fuel + 1, remaining@(_ :: _), b, pc, st, acc =>
    if stop b then (st, acc, b)
    else
      let batch := remaining.take B
      let newEmb := embedBatch (batch.map (fun d => d.text))
      let upd := updateBatch batch newEmb
      let pc2 := pc + batch.length
      let st2 := { st with
        processed := pc2
        lastProcessedId := lastIdOr batch st.lastProcessedId }
      migLoop embedBatch B stop fuel (remaining.drop B) (b + 1) pc2 st2 (acc ++ upd)

/-- `MigrationManager.start(batchSize)` on the snapshot `docs`:
record `total`, run the batch loop from a zero local counter, and set
`isComplete` only when `shouldStop` is still clear at the end. -/
def migStart {Emb Meta : Type} (embedBatch : List String → List Emb)
    (docs : List (Doc Emb Meta)) (B : Nat) (stop : Nat → Bool)
    (st : MigStatus) : MigStatus × List (Doc Emb Meta) :=
  let st0 := { st with total := docs.length }
  let r := migLoop embedBatch B stop (docs.length + 1) docs 0 0 st0 []
  (if stop r.2.2 then r.1 else { r.1 with isComplete := true }, r.2.1)

/-! ## Basic lemmas about the node map -/

theorem find?_eq_some_iff {g : Graph α} {x : String} :
    (∃ n, g.find? x = some n) ↔ x ∈ g.nodeIds := by
  constructor
  · rintro ⟨n, hn⟩
    have hm := List.mem_of_find?_eq_some hn
    have hp := List.find?_some hn
    simp only [decide_eq_true_eq] at hp
    subst hp
    exact List.mem_map_of_mem _ hm
  · intro hx
    rcases List.mem_map.mp hx with ⟨n, hn, hid⟩
    have : ∃ m, g.nodes.find? (fun m => m.id = x) = some m := by
      have : (g.nodes.find? (fun m => m.id = x)).isSome = true := by
        apply List.find?_isSome.mpr
        exact ⟨n, hn, by simp [hid]⟩
      exact Option.isSome_iff_exists.mp this
    exact this

theorem find?_mem {g : Graph α} {x : String} {n : Node α}
    (h : g.find? x = some n) : n ∈ g.nodes ∧ n.id = x := by
  refine ⟨List.mem_of_find?_eq_some h, ?_⟩
  have := List.find?_some h
  simpa using this

theorem update_params (g : Graph α) (id : String) (f : Node α → Node α) :
    (g.update id f).params = g.params := rfl

theorem update_entry (g : Graph α) (id : String) (f : Node α → Node α) :
    (g.update id f).entryPointId = g.entryPointId := rfl

theorem update_maxLevel (g : Graph α) (id : String) (f : Node α → Node α) :
    (g.update id f).maxLevel = g.maxLevel := rfl

theorem mem_update {g : Graph α} {id : String} {f : Node α → Node α}
    {m : Node α} (h : m ∈ (g.update id f).nodes) :
    ∃ n ∈ g.nodes, m = if n.id = id then f n else n := by
  rcases List.mem_map.mp h with ⟨n, hn, hm⟩
  exact ⟨n, hn, hm.symm⟩

/-! ## Error-kind lemmas (claim C3)

`addPoint` throws the duplicate-id error only at its very first check;
the traversal machinery can raise only a `TypeError` (or exhaust the
embedding fuel). -/

theorem processNeighbors_error_kind {g : Graph α} {q : α} {ef : Nat} {fs : ℚ} :
    ∀ (nbrs vis : List String) (C W : List Cand) {e : Err},
      processNeighbors dist g q ef fs nbrs vis C W = .error e → e = .typeError := by
  intro nbrs
  induction nbrs with
  | nil => intro vis C W e h; simp [processNeighbors] at h
  | cons n rest ih =>
    intro vis C W e h
    rw [processNeighbors] at h
    split at h
    · exact ih _ _ _ h
    · split at h
      · cases h; rfl
      · simp only [] at h
        split at h
        · exact ih _ _ _ h
        · exact ih _ _ _ h

theorem searchLayerLoop_error_kind {g : Graph α} {q : α} {ef level : Nat} :
    ∀ (fuel : Nat) (vis : List String) (C W : List Cand) {e : Err},
      searchLayerLoop dist g q ef level fuel vis C W = .error e →
      e = .typeError ∨ e = .fuelExhausted := by
  intro fuel
  induction fuel with
  | zero => intro vis C W e h; rw [searchLayerLoop] at h; cases h; right; rfl
  | succ fuel ih =>
    intro vis C W e h
    rw [searchLayerLoop] at h
    split at h
    · cases h
    · simp only [] at h
      split at h
      · cases h; left; rfl
      · split at h
        · cases h
        · split at h
          · cases h; left; rfl
          · split at h
            · cases h; left; rfl
            · split at h
              · rename_i herr
                cases h
                exact Or.inl (processNeighbors_error_kind dist _ _ _ _ herr)
              · exact ih _ _ _ h

theorem searchLayer_error_kind {g : Graph α} {q : α} {entry : Node α}
    {ef level : Nat} {e : Err}
    (h : searchLayer dist g q entry ef level = .error e) :
    e = .typeError ∨ e = .fuelExhausted :=
  searchLayerLoop_error_kind dist _ _ _ _ h

theorem bestNeighbor_error_kind {g : Graph α} {q : α} :
    ∀ (nbrs : List String) (best : ℚ) {e : Err},
      bestNeighbor dist g q nbrs best = .error e → e = .typeError := by
  intro nbrs
  induction nbrs with
  | nil => intro best e h; simp [bestNeighbor] at h
  | cons n rest ih =>
    intro best e h
    rw [bestNeighbor] at h
    split at h
    · cases h; rfl
    · simp only [] at h
      split at h
      · split at h
        · rename_i herr
          cases h
          exact ih _ herr
        · cases h
        · cases h
      · exact ih _ h

theorem climbLoop_error_kind {g : Graph α} {q : α} {l : Nat} :
    ∀ (fuel : Nat) (cur : Node α × ℚ) {e : Err},
      climbLoop dist g q l fuel cur = .error e →
      e = .typeError ∨ e = .fuelExhausted := by
  intro fuel
  induction fuel with
  | zero => intro cur e h; rw [climbLoop] at h; cases h; right; rfl
  | succ fuel ih =>
    intro cur e h
    rw [climbLoop] at h
    split at h
    · cases h; left; rfl
    · split at h
      · rename_i herr
        cases h
        exact Or.inl (bestNeighbor_error_kind dist _ _ herr)
      · cases h
      · exact ih _ h

theorem climbLayers_error_kind {g : Graph α} {q : α} :
    ∀ (layers : List Nat) (cur : Node α × ℚ) {e : Err},
      climbLayers dist g q layers cur = .error e →
      e = .typeError ∨ e = .fuelExhausted := by
  intro layers
  induction layers with
  | nil => intro cur e h; simp [climbLayers] at h
  | cons l rest ih =>
    intro cur e h
    rw [climbLayers] at h
    split at h
    · rename_i herr
      cases h
      exact climbLoop_error_kind dist _ _ herr
    · exact ih _ h

theorem evalCandidates_error_kind {g : Graph α} {base : α} :
    ∀ (ids : List String) {e : Err},
      evalCandidates dist g base ids = .error e → e = .typeError := by
  intro ids
  induction ids with
  | nil => intro e h; simp [evalCandidates] at h
  | cons n rest ih =>
    intro e h
    rw [evalCandidates] at h
    split at h
    · cases h; rfl
    · split at h
      · rename_i herr
        cases h
        exact ih herr
      · cases h

theorem connectNeighbors_error_kind {id : String} {l : Nat} :
    ∀ (nbrs : List Cand) (g : Graph α) (touched : List String)
      {e : Err} {gE : Graph α},
      connectNeighbors dist id l nbrs g touched = .error (e, gE) →
      e = .typeError := by
  intro nbrs
  induction nbrs with
  | nil => intro g touched e gE h; simp [connectNeighbors] at h
  | cons nb rest ih =>
    intro g touched e gE h
    rw [connectNeighbors] at h
    split at h
    · cases h; rfl
    · split at h
      · cases h; rfl
      · simp only [] at h
        split at h
        · split at h
          · rename_i herr
            cases h
            exact evalCandidates_error_kind dist _ herr
          · exact ih _ _ h
        · exact ih _ _ h

theorem connectLayers_error_kind {svec : α} {id : String} :
    ∀ (layers : List Nat) (g : Graph α) (curr : Option (Node α))
      (touched : List String) {e : Err} {gE : Graph α},
      connectLayers dist svec id layers g curr touched = .error (e, gE) →
      e = .typeError ∨ e = .fuelExhausted := by
  intro layers
  induction layers with
  | nil => intro g curr touched e gE h; simp [connectLayers] at h
  | cons l rest ih =>
    intro g curr touched e gE h
    rw [connectLayers.eq_def] at h
    simp only [] at h
    split at h
    · cases h; left; rfl
    · split at h
      · rename_i herr
        cases h
        exact searchLayer_error_kind dist herr
      · split at h
        · rename_i herr
          cases h
          exact Or.inl (connectNeighbors_error_kind dist _ _ _ herr)
        · exact ih _ _ _ h

/-! ## Concrete instances used by witnesses and counterexamples

The engine is parametric in the similarity function; these witnesses
instantiate the vector type with `ℚ` and use comparison-only similarity
functions (any symmetric score table is realizable by cosine on
suitable vectors, and none of the properties below depend on the
numeric values beyond their order). -/

/-- A concrete similarity function for witnesses. -/
def distW : ℚ → ℚ → ℚ := fun a b => if a = b then 1 else if a < b then b else a

/-- The default parameters (`M=16`, `efConstruction=200`, `efSearch=200`;
the level multiplier value is irrelevant to the engine's control flow). -/
def paramsW : Params := ⟨16, 200, 200, 1⟩

/-- One node `"a"`, which is the entry point. -/
def gOne : Graph ℚ := ⟨paramsW, 0, some "a", [⟨"a", 3, 0, [[]]⟩]⟩

/-- Entry `"a"` whose layer-0 list names `"b"`, absent from the map. -/
def gDangling : Graph ℚ := ⟨paramsW, 0, some "a", [⟨"a", 0, 0, [["b"]]⟩]⟩

/-- Two mutually linked nodes `"a" ↔ "b"` on layer 0. -/
def gTwo : Graph ℚ :=
  ⟨paramsW, 0, some "a", [⟨"a", 2, 0, [["b"]]⟩, ⟨"b", 5, 0, [["a"]]⟩]⟩

/-- Two nodes with no edges: `"b"` is unreachable from the entry. -/
def gSplit : Graph ℚ :=
  ⟨paramsW, 0, some "a", [⟨"a", 2, 0, [[]]⟩, ⟨"b", 5, 0, [[]]⟩]⟩

/-- The empty graph as the constructor makes it. -/
def gEmpty : Graph ℚ := ⟨paramsW, 0, none, []⟩

/-! ## Claim C3 — duplicate-id error -/

/-- **C3.** If `id` is already present in the node map, `addPoint`
fails with the duplicate-id error and the graph state carried at the
throw is the unchanged input graph (the check precedes every mutation);
if `id` is absent, `addPoint` never raises the duplicate-id error. -/
theorem addPoint_duplicate_iff (dist : α → α → ℚ) (g : Graph α)
    (id : String) (vec : α) (level : Nat) :
    ((g.find? id).isSome → addPoint dist g id vec level = .error (.duplicateId, g)) ∧
    (g.find? id = none →
      ∀ gE : Graph α, addPoint dist g id vec level ≠ .error (.duplicateId, gE)) := by
  constructor
  · intro hs
    rw [addPoint, if_pos hs]
  · intro hn gE hcontra
    rw [addPoint] at hcontra
    rw [if_neg (by simp [hn])] at hcontra
    simp only [] at hcontra
    split at hcontra
    · cases hcontra
    · split at hcontra
      · simp at hcontra
      · split at hcontra
        · rename_i herr
          cases hcontra
          rcases climbLayers_error_kind dist _ _ herr with h | h <;> cases h
        · split at hcontra
          · rename_i herr
            cases hcontra
            rcases connectLayers_error_kind dist _ _ _ _ herr with h | h <;> cases h
          · split at hcontra <;> cases hcontra

/-- Witness for C3 at a concrete graph: inserting `"a"` again fails
with the duplicate error and the untouched state, inserting a fresh
`"b"` never does. -/
theorem addPoint_duplicate_iff_witness :
    addPoint distW gOne "a" 9 0 = .error (.duplicateId, gOne) ∧
    ∀ gE : Graph ℚ, addPoint distW gOne "b" 4 0 ≠ .error (.duplicateId, gE) :=
  ⟨(addPoint_duplicate_iff distW gOne "a" 9 0).1 (by decide),
   (addPoint_duplicate_iff distW gOne "b" 4 0).2 (by decide)⟩

/-! ## Claim C1 — dangling neighbor ids

The source dereferences `this.nodes.get(neighborId)!` without a guard,
so a dangling id raises a `TypeError` instead of being skipped. -/

theorem find?_graph_append_some {ns : List (Node α)} {m : Node α}
    {x : String} {n : Node α} (p : Params) (ml : Nat) (ep : Option String)
    (h : List.find? (fun nn => nn.id = x) ns = some n) :
    Graph.find? ⟨p, ml, ep, ns ++ [m]⟩ x = some n := by
  simp only [Graph.find?]
  rw [List.find?_append, h]
  rfl

theorem find?_graph_append_none {ns : List (Node α)} {m : Node α}
    {x : String} (p : Params) (ml : Nat) (ep : Option String)
    (h : List.find? (fun nn => nn.id = x) ns = none) (hne : m.id ≠ x) :
    Graph.find? ⟨p, ml, ep, ns ++ [m]⟩ x = none := by
  simp only [Graph.find?]
  rw [List.find?_append, h]
  simp [Option.or, List.find?, hne]

theorem processNeighbors_dangling {g : Graph α} {q : α} {ef : Nat} {fs : ℚ}
    {d : String} (hd : g.find? d = none) :
    ∀ (pre : List String) (post : List String) (vis : List String)
      (C W : List Cand),
      (∀ x ∈ pre, (g.find? x).isSome) → d ∉ vis →
      processNeighbors dist g q ef fs (pre ++ d :: post) vis C W =
        .error .typeError := by
  intro pre
  induction pre with
  | nil =>
    intro post vis C W _ hdv
    rw [List.nil_append, processNeighbors, if_neg hdv, hd]
  | cons x rest ih =>
    intro post vis C W hpre hdv
    have hx : (g.find? x).isSome := hpre x (by simp)
    have hdx : d ≠ x := by
      intro hdx
      rw [← hdx, hd] at hx
      simp at hx
    rw [List.cons_append, processNeighbors]
    split
    · exact ih post vis C W (fun y hy => hpre y (by simp [hy])) hdv
    · rcases Option.isSome_iff_exists.mp hx with ⟨nx, hnx⟩
      rw [hnx]
      simp only []
      have hdv2 : d ∉ x :: vis := by
        intro hmem
        rcases List.mem_cons.mp hmem with h | h
        · exact hdx h
        · exact hdv h
      split
      · exact ih post _ _ _ (fun y hy => hpre y (by simp [hy])) hdv2
      · exact ih post _ _ _ (fun y hy => hpre y (by simp [hy])) hdv2

theorem searchLayer_dangling {g : Graph α} {q : α} {ef : Nat}
    {n : Node α} {pre post : List String} {d : String}
    (hself : g.find? n.id = some n)
    (hnb : n.neighbors[0]? = some (pre ++ d :: post))
    (hd : g.find? d = none)
    (hpre : ∀ x ∈ pre, (g.find? x).isSome) :
    searchLayer dist g q n ef 0 = .error .typeError := by
  have hdn : d ≠ n.id := by
    intro hdn
    rw [← hdn, hd] at hself
    cases hself
  rw [searchLayer]
  show searchLayerLoop dist g q ef 0 (g.nodes.length + 1 + 1) _ _ _ = _
  rw [searchLayerLoop]
  have hs : sortDesc [(⟨n.id, dist q n.vector⟩ : Cand)] =
      [⟨n.id, dist q n.vector⟩] := rfl
  rw [hs]
  simp only []
  rw [show [(⟨n.id, dist q n.vector⟩ : Cand)].getLast? = some ⟨n.id, dist q n.vector⟩ from rfl]
  simp only []
  rw [if_neg (by simp [lt_irrefl])]
  rw [hself]
  simp only []
  rw [hnb]
  simp only []
  rw [processNeighbors_dangling dist hd pre post [n.id] []
    [⟨n.id, dist q n.vector⟩] hpre (by simpa using hdn)]

/-- **C1 (amended).** The engine is *not* resilient to dangling ids:
when the entry node of a layer-0 traversal lists a dangling neighbor id
(preceded only by resolvable ids), `searchLayer` raises a `TypeError`
instead of skipping it, `search` propagates that error, and `addPoint`
of a fresh point on such a graph raises it as well (its layer-0 connect
step runs the same `searchLayer`).  Stated for `maxLevel = 0`, where
the layer-0 list is the first one traversed. -/
theorem traversal_dangling_raises (dist : α → α → ℚ) (g : Graph α)
    (q : α) (k ef : Nat) (e : String) (n : Node α)
    (pre post : List String) (d : String)
    (hent : g.entryPointId = some e)
    (hfind : g.find? e = some n)
    (hmax : g.maxLevel = 0)
    (hnb : n.neighbors[0]? = some (pre ++ d :: post))
    (hd : g.find? d = none)
    (hpre : ∀ x ∈ pre, (g.find? x).isSome) :
    searchLayer dist g q n ef 0 = .error .typeError ∧
    search dist g q k = .error .typeError ∧
    (∀ (id2 : String) (vec2 : α) (lvl2 : Nat),
      g.find? id2 = none → id2 ≠ d →
      ∃ gE : Graph α, addPoint dist g id2 vec2 lvl2 = .error (.typeError, gE)) := by
  have hid : n.id = e := (find?_mem hfind).2
  have hself : g.find? n.id = some n := by rw [hid]; exact hfind
  have hsl : ∀ ef2 : Nat, searchLayer dist g q n ef2 0 = .error .typeError :=
    fun ef2 => searchLayer_dangling dist hself hnb hd hpre
  refine ⟨hsl ef, ?_, ?_⟩
  · rw [search, hent]
    simp only []
    rw [hfind]
    simp only []
    rw [hmax]
    rw [show layersDown 0 1 = [] from rfl]
    rw [show climbLayers dist g q [] (n, dist q n.vector) =
      .ok (n, dist q n.vector) from rfl]
    simp only []
    rw [hsl g.params.efSearch]
  · intro id2 vec2 lvl2 hid2 hneq
    have hselfL : List.find? (fun nn => nn.id = n.id) g.nodes = some n := hself
    have hdL : List.find? (fun nn => nn.id = d) g.nodes = none := hd
    have hfindL : List.find? (fun nn => nn.id = e) g.nodes = some n := hfind
    refine ⟨⟨g.params, g.maxLevel, some e,
      g.nodes ++ [⟨id2, vec2, lvl2, List.replicate (lvl2 + 1) []⟩]⟩, ?_⟩
    rw [addPoint, if_neg (by simp [hid2])]
    simp only []
    rw [hent]
    simp only []
    have hfind1 : Graph.find? ⟨g.params, g.maxLevel, some e,
        g.nodes ++ [⟨id2, vec2, lvl2, List.replicate (lvl2 + 1) []⟩]⟩ e = some n :=
      find?_graph_append_some _ _ _ hfindL
    rw [hfind1]
    simp only []
    have hlay1 : layersDown g.maxLevel (lvl2 + 1) = [] := by
      rw [hmax]
      simp [layersDown]
    rw [hlay1]
    simp only [climbLayers]
    have hmin : lvl2 ⊓ g.maxLevel = 0 := by
      rw [hmax]
      exact Nat.min_zero lvl2
    rw [hmin]
    rw [show layersDown 0 0 = [0] from rfl]
    rw [connectLayers.eq_def]
    simp only []
    have hself1 : Graph.find? ⟨g.params, g.maxLevel, some e,
        g.nodes ++ [⟨id2, vec2, lvl2, List.replicate (lvl2 + 1) []⟩]⟩ n.id = some n :=
      find?_graph_append_some _ _ _ hselfL
    have hd1 : Graph.find? ⟨g.params, g.maxLevel, some e,
        g.nodes ++ [⟨id2, vec2, lvl2, List.replicate (lvl2 + 1) []⟩]⟩ d = none :=
      find?_graph_append_none _ _ _ hdL hneq
    have hpre1 : ∀ x ∈ pre,
        (Graph.find? ⟨g.params, g.maxLevel, some e,
          g.nodes ++ [⟨id2, vec2, lvl2, List.replicate (lvl2 + 1) []⟩]⟩ x).isSome := by
      intro x hx
      rcases Option.isSome_iff_exists.mp (hpre x hx) with ⟨nx, hnx⟩
      rw [find?_graph_append_some _ _ _ hnx]
      rfl
    rw [searchLayer_dangling dist hself1 hnb hd1 hpre1]

/-- **C1 counterexample.** A concrete graph whose entry node lists the
dangling id `"b"`: `search` raises a `TypeError` rather than skipping
the id and completing. -/
theorem search_dangling_counterexample :
    gDangling.find? "b" = none ∧
    gDangling.find? "a" = some ⟨"a", 0, 0, [["b"]]⟩ ∧
    search distW gDangling 0 1 = .error .typeError ∧
    searchLayer distW gDangling 0 ⟨"a", 0, 0, [["b"]]⟩ 200 0 = .error .typeError := by
  refine ⟨by decide, by decide, by decide, by decide⟩

/-- Witness for the amended C1 at the same concrete graph, through the
general theorem. -/
theorem traversal_dangling_raises_witness :
    searchLayer distW gDangling 0 ⟨"a", 0, 0, [["b"]]⟩ 7 0 = .error .typeError ∧
    search distW gDangling 0 3 = .error .typeError ∧
    (∃ gE : Graph ℚ, addPoint distW gDangling "c" 9 0 = .error (.typeError, gE)) := by
  have h := traversal_dangling_raises distW gDangling 0 3 7 "a"
    ⟨"a", 0, 0, [["b"]]⟩ [] [] "b" (by decide) (by decide) (by decide)
    (by decide) (by decide) (by decide)
  exact ⟨h.1, h.2.1, h.2.2 "c" 9 0 (by decide) (by decide)⟩


/-! ## Claim C5 — search output is descending and of length ≤ k -/

theorem processNeighbors_sorted {g : Graph α} {q : α} {ef : Nat} {fs : ℚ} :
    ∀ (nbrs vis : List String) (C W : List Cand)
      {out : List String × List Cand × List Cand},
      processNeighbors dist g q ef fs nbrs vis C W = .ok out →
      ScoresDesc W → ScoresDesc out.2.2 := by
  intro nbrs
  induction nbrs with
  | nil =>
    intro vis C W out h hW
    rw [processNeighbors] at h
    cases h
    exact hW
  | cons n rest ih =>
    intro vis C W out h hW
    rw [processNeighbors] at h
    split at h
    · exact ih _ _ _ h hW
    · split at h
      · cases h
      · simp only [] at h
        split at h
        · refine ih _ _ _ h ?_
          split
          · exact List.Pairwise.sublist (List.dropLast_sublist _) (sortDesc_sorted _)
          · exact sortDesc_sorted _
        · exact ih _ _ _ h hW

theorem searchLayerLoop_sorted {g : Graph α} {q : α} {ef level : Nat} :
    ∀ (fuel : Nat) (vis : List String) (C W : List Cand) {res : List Cand},
      searchLayerLoop dist g q ef level fuel vis C W = .ok res →
      ScoresDesc W → ScoresDesc res := by
  intro fuel
  induction fuel with
  | zero =>
    intro vis C W res h hW
    rw [searchLayerLoop] at h
    cases h
  | succ fuel ih =>
    intro vis C W res h hW
    rw [searchLayerLoop] at h
    split at h
    · cases h; exact hW
    · simp only [] at h
      split at h
      · cases h
      · split at h
        · cases h; exact sortDesc_sorted _
        · split at h
          · cases h
          · split at h
            · cases h
            · split at h
              · cases h
              · rename_i hpn
                exact ih _ _ _ h (processNeighbors_sorted dist _ _ _ _ hpn (sortDesc_sorted _))

theorem searchLayer_sorted {g : Graph α} {q : α} {entry : Node α}
    {ef level : Nat} {res : List Cand}
    (h : searchLayer dist g q entry ef level = .ok res) : ScoresDesc res := by
  refine searchLayerLoop_sorted dist _ _ _ _ h ?_
  simp [ScoresDesc]

/-- **C5.** Whenever `search` returns a result list, its length is at
most `k` and its scores are monotonically non-increasing; on an empty
graph (null entry point) it returns the empty list. -/
theorem search_topk_sorted (dist : α → α → ℚ) (g : Graph α) (q : α) (k : Nat) :
    (∀ res : List Cand, search dist g q k = .ok res →
      res.length ≤ k ∧ ScoresDesc res) ∧
    (g.entryPointId = none → search dist g q k = .ok []) := by
  constructor
  · intro res h
    rw [search] at h
    split at h
    · cases h
      exact ⟨by simp, by simp [ScoresDesc]⟩
    · split at h
      · cases h
      · split at h
        · cases h
        · split at h
          · cases h
          · rename_i hW
            cases h
            constructor
            · exact (List.length_take _ _).le.trans (min_le_left _ _)
            · exact List.Pairwise.sublist (List.take_sublist _ _)
                (searchLayer_sorted dist hW)
  · intro hent
    rw [search, hent]

/-- Witness for C5: a successful concrete search obeys the bound and
ordering, and the empty graph yields the empty result. -/
theorem search_topk_sorted_witness :
    (([⟨"b", 5⟩] : List Cand).length ≤ 1 ∧ ScoresDesc [⟨"b", 5⟩]) ∧
    search distW gEmpty 9 5 = .ok [] :=
  ⟨(search_topk_sorted distW gTwo 4 1).1 [⟨"b", 5⟩] (by decide),
   (search_topk_sorted distW gEmpty 9 5).2 (by decide)⟩

/-! ## Claim C2 — the degree bound is an `addPoint` invariant -/

/-- Invariant 1 of the spec: at every layer `l ≤ n.level` the neighbor
list has at most `M` entries. -/
def DegOK (g : Graph α) : Prop :=
  ∀ n ∈ g.nodes, ∀ l : Nat, l ≤ n.level → ∀ lst : List String,
    n.neighbors[l]? = some lst → lst.length ≤ g.params.M

theorem degOK_update_set {g : Graph α} {id : String} {l : Nat}
    {X : List String} (hdeg : DegOK g) (hX : X.length ≤ g.params.M) :
    DegOK (g.update id (fun n => { n with neighbors := n.neighbors.set l X })) := by
  intro m hm i hi lst hlst
  rcases mem_update hm with ⟨n, hn, hm2⟩
  subst hm2
  by_cases hid : n.id = id
  · simp only [hid, if_pos] at hi hlst ⊢
    by_cases hil : i = l
    · subst hil
      by_cases hlen : i < n.neighbors.length
      · rw [List.getElem?_set_self hlen] at hlst
        cases hlst
        exact hX
      · rw [List.set_eq_of_length_le (le_of_not_lt hlen)] at hlst
        exact hdeg n hn i hi lst hlst
    · rw [List.getElem?_set_ne (Ne.symm hil)] at hlst
      exact hdeg n hn i hi lst hlst
  · simp only [if_neg hid] at hi hlst ⊢
    exact hdeg n hn i hi lst hlst

theorem update_set_set {g : Graph α} {id : String} {l : Nat}
    {X Y : List String} :
    ((g.update id (fun n => { n with neighbors := n.neighbors.set l X })).update id
      (fun n => { n with neighbors := n.neighbors.set l Y })) =
    g.update id (fun n => { n with neighbors := n.neighbors.set l Y }) := by
  simp only [Graph.update, List.map_map]
  congr 1
  apply List.map_congr_left
  intro n _
  by_cases h : n.id = id
  · simp [Function.comp, h, List.set_set]
  · simp [Function.comp, h]

theorem selectNeighbors_length_le (cands : List Cand) (M : Nat) :
    (selectNeighbors cands M).length ≤ M := by
  simp only [selectNeighbors]
  exact (List.length_take _ _).le.trans (min_le_left _ _)

theorem connectNeighbors_degOK {id : String} {l : Nat} :
    ∀ (nbrs : List Cand) (g : Graph α) (touched : List String)
      {g2 : Graph α} {t2 : List String},
      connectNeighbors dist id l nbrs g touched = .ok (g2, t2) →
      DegOK g → DegOK g2 ∧ g2.params = g.params := by
  intro nbrs
  induction nbrs with
  | nil =>
    intro g touched g2 t2 h hdeg
    rw [connectNeighbors] at h
    cases h
    exact ⟨hdeg, rfl⟩
  | cons nb rest ih =>
    intro g touched g2 t2 h hdeg
    rw [connectNeighbors] at h
    split at h
    · cases h
    · split at h
      · cases h
      · simp only [] at h
        split at h
        · split at h
          · cases h
          · rename_i cands hcands
            rw [update_set_set] at h
            have hkeep : ((selectNeighbors cands g.params.M).map (fun c => c.id)).length
                ≤ g.params.M := by
              rw [List.length_map]
              exact selectNeighbors_length_le _ _
            rcases ih _ _ h (degOK_update_set hdeg hkeep) with ⟨h1, h2⟩
            exact ⟨h1, h2.trans rfl⟩
        · rcases ih _ _ h (degOK_update_set hdeg (le_of_not_lt (by assumption))) with ⟨h1, h2⟩
          exact ⟨h1, h2.trans rfl⟩


theorem connectLayers_degOK {svec : α} {id : String} :
    ∀ (layers : List Nat) (g : Graph α) (curr : Option (Node α))
      (touched : List String) {g2 : Graph α} {t2 : List String},
      connectLayers dist svec id layers g curr touched = .ok (g2, t2) →
      DegOK g → DegOK g2 ∧ g2.params = g.params := by
  intro layers
  induction layers with
  | nil =>
    intro g curr touched g2 t2 h hdeg
    rw [connectLayers] at h
    cases h
    exact ⟨hdeg, rfl⟩
  | cons l rest ih =>
    intro g curr touched g2 t2 h hdeg
    rw [connectLayers.eq_def] at h
    simp only [] at h
    split at h
    · cases h
    · split at h
      · cases h
      · rename_i W hW
        split at h
        · cases h
        · rename_i gmid tmid hcn
          have hlen : ((selectNeighbors W g.params.M).map (fun c => c.id)).length
              ≤ g.params.M := by
            rw [List.length_map]
            exact selectNeighbors_length_le _ _
          have hdeg1 := @degOK_update_set α g id l _ hdeg hlen
          rcases connectNeighbors_degOK dist _ _ _ hcn hdeg1 with ⟨hdeg2, hp2⟩
          rcases ih _ _ _ h hdeg2 with ⟨hdeg3, hp3⟩
          exact ⟨hdeg3, hp3.trans (hp2.trans rfl)⟩

theorem degOK_append_new {g : Graph α} (ml : Nat) (ep : Option String)
    (id : String) (vec : α) (level : Nat) (hdeg : DegOK g) :
    DegOK ⟨g.params, ml, ep,
      g.nodes ++ [⟨id, vec, level, List.replicate (level + 1) []⟩]⟩ := by
  intro n hn l hl lst hlst
  rcases List.mem_append.mp hn with hn | hn
  · exact hdeg n hn l hl lst hlst
  · rcases List.mem_singleton.mp hn with rfl
    simp only [] at hlst
    rcases lt_or_ge l (level + 1) with hless | hge
    · rw [List.getElem?_replicate, if_pos (by simpa using hless)] at hlst
      cases hlst
      simp
    · rw [List.getElem?_eq_none (by simpa using hge)] at hlst
      cases hlst

/-- DegOK only depends on the node list and the parameters. -/
theorem degOK_of_eq {g1 g2 : Graph α} (h : DegOK g1)
    (hn : g2.nodes = g1.nodes) (hp : g2.params = g1.params) : DegOK g2 := by
  intro n hmem l hl lst hlst
  rw [hp]
  exact h n (hn ▸ hmem) l hl lst hlst

/-- **C2.** The degree bound is preserved by every successful
`addPoint` call: if every node obeys `|neighbors[l]| ≤ M` for all
`l ≤ level` before the call, so does every node afterwards (the
parameters, in particular `M`, are unchanged). -/
theorem addPoint_degree_bound (dist : α → α → ℚ) (g : Graph α)
    (id : String) (vec : α) (level : Nat) (g2 : Graph α)
    (touched : List String) (hdeg : DegOK g)
    (h : addPoint dist g id vec level = .ok (g2, touched)) :
    DegOK g2 ∧ g2.params = g.params := by
  rw [addPoint] at h
  split at h
  · cases h
  · simp only [] at h
    split at h
    · cases h
      exact ⟨degOK_append_new _ _ _ _ _ hdeg, rfl⟩
    · split at h
      · cases h
      · split at h
        · cases h
        · split at h
          · cases h
          · rename_i gmid tmid hcl
            have hdeg1 : DegOK (⟨g.params, g.maxLevel, g.entryPointId,
                g.nodes ++ [⟨id, vec, level, List.replicate (level + 1) []⟩]⟩ : Graph α) :=
              degOK_append_new _ _ _ _ _ hdeg
            rcases connectLayers_degOK dist _ _ _ _ hcl hdeg1 with ⟨hdeg2, hp2⟩
            split at h
            · cases h
              exact ⟨degOK_of_eq hdeg2 rfl rfl, hp2.trans rfl⟩
            · cases h
              exact ⟨hdeg2, hp2.trans rfl⟩


/-- Witness for C2: a concrete successful insertion into `gOne`
preserves the degree bound. -/
theorem addPoint_degree_bound_witness :
    DegOK (⟨paramsW, 0, some "a",
      [⟨"a", 3, 0, [["b"]]⟩, ⟨"b", 4, 0, [["a"]]⟩]⟩ : Graph ℚ) ∧
    (⟨paramsW, 0, some "a",
      [⟨"a", 3, 0, [["b"]]⟩, ⟨"b", 4, 0, [["a"]]⟩]⟩ : Graph ℚ).params = gOne.params := by
  refine addPoint_degree_bound distW gOne "b" 4 0 _ ["b", "a"] ?_ (by decide)
  intro n hn l hl lst hlst
  simp only [gOne, List.mem_singleton] at hn
  subst hn
  have hl0 : l = 0 := Nat.le_zero.mp hl
  subst hl0
  simp only [List.getElem?_cons_zero, Option.some.injEq] at hlst
  subst hlst
  simp [gOne, paramsW]

/-! ## Claims C6 and C10 — entry point and max level invariants -/

/-- The `(id, level)` skeleton of the node map: ids and levels are
immutable once a node is created; only `neighbors` is ever mutated. -/
def skel (g : Graph α) : List (String × Nat) :=
  g.nodes.map (fun n => (n.id, n.level))

theorem skel_update_set {g : Graph α} {id : String} {l : Nat}
    {X : List String} :
    skel (g.update id (fun n => { n with neighbors := n.neighbors.set l X })) =
    skel g := by
  simp only [skel, Graph.update, List.map_map]
  apply List.map_congr_left
  intro n _
  by_cases h : n.id = id
  · simp [Function.comp, h]
  · simp [Function.comp, h]

theorem mem_skel {g : Graph α} {x : String} {lv : Nat} :
    (x, lv) ∈ skel g ↔ ∃ n ∈ g.nodes, n.id = x ∧ n.level = lv := by
  simp [skel, List.mem_map]

theorem connectNeighbors_frame {id : String} {l : Nat} :
    ∀ (nbrs : List Cand) (g : Graph α) (touched : List String)
      {g2 : Graph α} {t2 : List String},
      connectNeighbors dist id l nbrs g touched = .ok (g2, t2) →
      skel g2 = skel g ∧ g2.entryPointId = g.entryPointId ∧
        g2.maxLevel = g.maxLevel ∧ g2.params = g.params := by
  intro nbrs
  induction nbrs with
  | nil =>
    intro g touched g2 t2 h
    rw [connectNeighbors] at h
    cases h
    exact ⟨rfl, rfl, rfl, rfl⟩
  | cons nb rest ih =>
    intro g touched g2 t2 h
    rw [connectNeighbors] at h
    split at h
    · cases h
    · split at h
      · cases h
      · simp only [] at h
        split at h
        · split at h
          · cases h
          · rw [update_set_set] at h
            rcases ih _ _ h with ⟨h1, h2, h3, h4⟩
            exact ⟨h1.trans skel_update_set, h2, h3, h4⟩
        · rcases ih _ _ h with ⟨h1, h2, h3, h4⟩
          exact ⟨h1.trans skel_update_set, h2, h3, h4⟩

theorem connectLayers_frame {svec : α} {id : String} :
    ∀ (layers : List Nat) (g : Graph α) (curr : Option (Node α))
      (touched : List String) {g2 : Graph α} {t2 : List String},
      connectLayers dist svec id layers g curr touched = .ok (g2, t2) →
      skel g2 = skel g ∧ g2.entryPointId = g.entryPointId ∧
        g2.maxLevel = g.maxLevel ∧ g2.params = g.params := by
  intro layers
  induction layers with
  | nil =>
    intro g curr touched g2 t2 h
    rw [connectLayers] at h
    cases h
    exact ⟨rfl, rfl, rfl, rfl⟩
  | cons l rest ih =>
    intro g curr touched g2 t2 h
    rw [connectLayers.eq_def] at h
    simp only [] at h
    split at h
    · cases h
    · split at h
      · cases h
      · split at h
        · cases h
        · rename_i gmid tmid hcn
          rcases connectNeighbors_frame dist _ _ _ hcn with ⟨h1, h2, h3, hp⟩
          rcases ih _ _ _ h with ⟨h4, h5, h6, hp2⟩
          exact ⟨h4.trans (h1.trans skel_update_set), h5.trans h2,
            h6.trans h3, hp2.trans hp⟩

/-- The structural effect of a successful `addPoint`: one node with the
given id and level is appended, every existing id and level survives,
and the entry point and max level change exactly as lines 50–54 and
121–124 of `hnsw.ts` prescribe. -/
theorem addPoint_shape {g : Graph α} {id : String} {vec : α} {level : Nat}
    {g2 : Graph α} {touched : List String}
    (h : addPoint dist g id vec level = .ok (g2, touched)) :
    g2.params = g.params ∧
    skel g2 = skel g ++ [(id, level)] ∧
    ((g.entryPointId = none ∧ g2.entryPointId = some id ∧ g2.maxLevel = level) ∨
     (g.entryPointId ≠ none ∧
       ((g.maxLevel < level ∧ g2.entryPointId = some id ∧ g2.maxLevel = level) ∨
        (level ≤ g.maxLevel ∧ g2.entryPointId = g.entryPointId ∧
          g2.maxLevel = g.maxLevel)))) := by
  rw [addPoint] at h
  split at h
  · cases h
  · simp only [] at h
    split at h
    · rename_i hent
      cases h
      refine ⟨rfl, by simp [skel], Or.inl ⟨hent, rfl, rfl⟩⟩
    · rename_i eid hent
      split at h
      · cases h
      · split at h
        · cases h
        · split at h
          · cases h
          · rename_i gmid tmid hcl
            rcases connectLayers_frame dist _ _ _ _ hcl with ⟨h1, h2, h3, hp⟩
            have hskel1 : skel (⟨g.params, g.maxLevel, g.entryPointId,
                g.nodes ++ [⟨id, vec, level, List.replicate (level + 1) []⟩]⟩ : Graph α) =
                skel g ++ [(id, level)] := by
              simp [skel]
            split at h
            · rename_i hlt
              cases h
              exact ⟨hp.trans rfl, h1.trans hskel1,
                Or.inr ⟨by simp [hent], Or.inl ⟨hlt, rfl, rfl⟩⟩⟩
            · rename_i hnlt
              cases h
              exact ⟨hp.trans rfl, h1.trans hskel1,
                Or.inr ⟨by simp [hent], Or.inr ⟨le_of_not_lt hnlt, h2.trans rfl, h3.trans rfl⟩⟩⟩


/-- The graph states reachable from a fresh `HNSWIndex` by successful
insertions. -/
inductive Reachable (dist : α → α → ℚ) : Graph α → Prop where
  | empty (p : Params) : Reachable dist ⟨p, 0, none, []⟩
  | step {g g2 : Graph α} {id : String} {vec : α} {level : Nat}
      {touched : List String} :
      Reachable dist g →
      addPoint dist g id vec level = .ok (g2, touched) →
      Reachable dist g2

/-- Invariant 3 of the spec, plus the `entryPoint.level ≥ n.level`
property: the entry point is null exactly on the empty map, it names a
node whose level is `maxLevel`, and `maxLevel` dominates all levels. -/
def EntryInv (g : Graph α) : Prop :=
  (g.entryPointId = none ↔ g.nodes = []) ∧
  (∀ e, g.entryPointId = some e →
    ∃ n ∈ g.nodes, n.id = e ∧ n.level = g.maxLevel) ∧
  (∀ n ∈ g.nodes, n.level ≤ g.maxLevel)

theorem skel_nonempty_nodes {g : Graph α} (h : skel g ≠ []) : g.nodes ≠ [] := by
  intro hc
  exact h (by simp [skel, hc])

/-- **C6.** In every state reachable from the empty graph by successful
`addPoint` calls, `entryPointId` is null exactly when the node map is
empty, and otherwise names a node whose level equals `maxLevel`, which
dominates every node's level. -/
theorem reachable_entry_inv (dist : α → α → ℚ) (g : Graph α)
    (h : Reachable dist g) : EntryInv g := by
  induction h with
  | empty p => exact ⟨by simp, by simp, by simp⟩
  | step hreach hadd ih =>
    rename_i g g2 id vec level touched
    rcases ih with ⟨ih1, ih2, ih3⟩
    rcases addPoint_shape dist hadd with ⟨hp, hskel, hcase⟩
    have hmem2 : ∀ n ∈ g2.nodes, (n.id, n.level) ∈ skel g ++ [(id, level)] := by
      intro n hn
      rw [← hskel]
      exact List.mem_map_of_mem _ hn
    have hmem2' : ∀ x lv, (x, lv) ∈ skel g ++ [(id, level)] →
        ∃ n ∈ g2.nodes, n.id = x ∧ n.level = lv := by
      intro x lv hxlv
      rw [← hskel] at hxlv
      exact mem_skel.mp hxlv
    have hne2 : g2.nodes ≠ [] := by
      apply skel_nonempty_nodes
      rw [hskel]
      simp
    rcases hcase with ⟨hent, hent2, hmax2⟩ | ⟨hent, hcase2⟩
    · -- first insertion into an empty map
      have hnodes : g.nodes = [] := ih1.mp hent
      have hskelnil : skel g = [] := by simp [skel, hnodes]
      refine ⟨?_, ?_, ?_⟩
      · rw [hent2]
        simp [hne2]
      · intro e he
        rw [hent2] at he
        cases he
        refine hmem2' id g2.maxLevel ?_
        rw [hmax2, hskelnil]
        simp
      · intro n hn
        have := hmem2 n hn
        rw [hskelnil] at this
        simp at this
        rw [hmax2, this.2]
    · rcases hcase2 with ⟨hlt, hent2, hmax2⟩ | ⟨hle, hent2, hmax2⟩
      · -- the new node exceeds the old maxLevel and becomes the entry
        refine ⟨?_, ?_, ?_⟩
        · rw [hent2]
          simp [hne2]
        · intro e he
          rw [hent2] at he
          cases he
          refine hmem2' id g2.maxLevel ?_
          rw [hmax2]
          simp
        · intro n hn
          rcases List.mem_append.mp (hmem2 n hn) with hmem | hmem
          · rcases mem_skel.mp hmem with ⟨m, hm, hid, hlv⟩
            rw [hmax2, ← hlv]
            exact le_of_lt (lt_of_le_of_lt (ih3 m hm) hlt)
          · simp at hmem
            rw [hmax2, hmem.2]
      · -- entry point and maxLevel unchanged
        rcases Option.ne_none_iff_exists.mp hent with ⟨e, he⟩
        refine ⟨?_, ?_, ?_⟩
        · rw [hent2, ← he]
          simp [hne2, hent]
        · intro e2 he2
          rw [hent2] at he2
          rcases ih2 e2 he2 with ⟨n, hn, hid, hlv⟩
          refine hmem2' e2 g2.maxLevel ?_
          rw [hmax2]
          refine List.mem_append.mpr (Or.inl ?_)
          exact mem_skel.mpr ⟨n, hn, hid, hlv⟩
        · intro n hn
          rcases List.mem_append.mp (hmem2 n hn) with hmem | hmem
          · rcases mem_skel.mp hmem with ⟨m, hm, hid, hlv⟩
            rw [hmax2, ← hlv]
            exact ih3 m hm
          · simp at hmem
            rw [hmax2, hmem.2]
            exact hle

/-- Witness for C6 through an explicit two-step reachable state. -/
theorem reachable_entry_inv_witness :
    EntryInv (⟨paramsW, 0, some "a",
      [⟨"a", 3, 0, [["b"]]⟩, ⟨"b", 4, 0, [["a"]]⟩]⟩ : Graph ℚ) :=
  reachable_entry_inv distW _
    (Reachable.step (Reachable.step (Reachable.empty paramsW)
      (show addPoint distW ⟨paramsW, 0, none, []⟩ "a" 3 0 =
        .ok (⟨paramsW, 0, some "a", [⟨"a", 3, 0, [[]]⟩]⟩, ["a"]) by decide))
      (show addPoint distW ⟨paramsW, 0, some "a", [⟨"a", 3, 0, [[]]⟩]⟩ "b" 4 0 =
        .ok (⟨paramsW, 0, some "a",
          [⟨"a", 3, 0, [["b"]]⟩, ⟨"b", 4, 0, [["a"]]⟩]⟩, ["b", "a"]) by decide))

/-- **C10.** Across successful `addPoint` calls `maxLevel` never
decreases and the entry point never returns to null; with a non-null
entry it changes exactly when the new level strictly exceeds the old
`maxLevel`, in which case the new node becomes the entry and `maxLevel`
becomes its level. -/
theorem addPoint_entry_monotone (dist : α → α → ℚ) (g : Graph α)
    (id : String) (vec : α) (level : Nat) (g2 : Graph α)
    (touched : List String)
    (hg : g.entryPointId = none → g.maxLevel = 0)
    (h : addPoint dist g id vec level = .ok (g2, touched)) :
    g.maxLevel ≤ g2.maxLevel ∧ g2.entryPointId.isSome ∧
    (g.entryPointId.isSome →
      ((g.maxLevel < level → g2.entryPointId = some id ∧ g2.maxLevel = level) ∧
       (level ≤ g.maxLevel → g2.entryPointId = g.entryPointId ∧
         g2.maxLevel = g.maxLevel))) := by
  rcases addPoint_shape dist h with ⟨hp, hskel, hcase⟩
  rcases hcase with ⟨hent, hent2, hmax2⟩ | ⟨hent, hcase2⟩
  · refine ⟨?_, by simp [hent2], ?_⟩
    · rw [hg hent, hmax2]
      exact Nat.zero_le level
    · intro hsome
      rw [hent] at hsome
      cases hsome
  · rcases hcase2 with ⟨hlt, hent2, hmax2⟩ | ⟨hle, hent2, hmax2⟩
    · refine ⟨by rw [hmax2]; exact le_of_lt hlt, by simp [hent2], ?_⟩
      intro _
      refine ⟨fun _ => ⟨hent2, hmax2⟩, fun hle2 => absurd hlt (not_lt.mpr hle2)⟩
    · refine ⟨by rw [hmax2], ?_, ?_⟩
      · rw [hent2]
        rcases Option.ne_none_iff_exists.mp hent with ⟨e, he⟩
        simp [← he]
      · intro _
        exact ⟨fun hlt2 => absurd hlt2 (not_lt.mpr hle), fun _ => ⟨hent2, hmax2⟩⟩

/-- Witness for C10 at a concrete insertion with a higher level. -/
theorem addPoint_entry_monotone_witness :
    gOne.maxLevel ≤ 2 ∧ (some "b").isSome ∧
    (gOne.entryPointId.isSome →
      ((gOne.maxLevel < 2 → (some "b") = some "b" ∧ (2 : Nat) = 2) ∧
       ((2 : Nat) ≤ gOne.maxLevel → (some "b") = gOne.entryPointId ∧
         (2 : Nat) = gOne.maxLevel))) := by
  have h := addPoint_entry_monotone distW gOne "b" 4 2
    ⟨paramsW, 2, some "b",
      [⟨"a", 3, 0, [["b"]]⟩, ⟨"b", 4, 2, [["a"], [], []]⟩]⟩ ["b", "a"]
    (by decide) (by decide)
  simpa using h

/-! ## Claim C8 — migration updates only the embedding field -/

/-- **C8.** The batch update `{...doc, embedding: newEmbeddings[idx]}`
preserves `id`, `text`, `metadata` and `createdAt` of every document
and replaces only `embedding` (with the `idx`-th new embedding, absent
when the embedder returned too few vectors).  These are the records the
migration hands to `indexDocuments`, which writes them back unchanged. -/
theorem updateBatch_preserves {Emb Meta : Type}
    (docs : List (Doc Emb Meta)) (embeds : List Emb) :
    (updateBatch docs embeds).length = docs.length ∧
    (∀ (i : Nat) (di dj : Doc Emb Meta), docs[i]? = some di →
      (updateBatch docs embeds)[i]? = some dj →
      dj.id = di.id ∧ dj.text = di.text ∧ dj.metadata = di.metadata ∧
        dj.createdAt = di.createdAt ∧ dj.embedding = embeds[i]?) := by
  induction docs generalizing embeds with
  | nil =>
    refine ⟨rfl, ?_⟩
    intro i di dj hdi
    simp at hdi
  | cons d ds ih =>
    cases embeds with
    | nil =>
      refine ⟨by simp [updateBatch, (ih []).1], ?_⟩
      intro i di dj hdi hdj
      cases i with
      | zero =>
        simp [updateBatch] at hdi hdj
        subst hdi
        subst hdj
        simp
      | succ i =>
        simp [updateBatch] at hdi hdj
        have := (ih []).2 i di dj hdi hdj
        simpa using this
    | cons e es =>
      refine ⟨by simp [updateBatch, (ih es).1], ?_⟩
      intro i di dj hdi hdj
      cases i with
      | zero =>
        simp [updateBatch] at hdi hdj
        subst hdi
        subst hdj
        simp
      | succ i =>
        simp [updateBatch] at hdi hdj
        have := (ih es).2 i di dj hdi hdj
        simpa using this

/-- Witness for C8 at a concrete two-document batch. -/
theorem updateBatch_preserves_witness :
    (updateBatch
      ([⟨"d1", "t1", (), none, 5⟩, ⟨"d2", "t2", (), some 3, 6⟩] : List (Doc ℚ Unit))
      [7]).length = 2 ∧
    ((⟨"d2", "t2", (), none, 6⟩ : Doc ℚ Unit).id = "d2" ∧
      (⟨"d2", "t2", (), none, 6⟩ : Doc ℚ Unit).text = "t2" ∧
      (⟨"d2", "t2", (), none, 6⟩ : Doc ℚ Unit).metadata = () ∧
      (⟨"d2", "t2", (), none, 6⟩ : Doc ℚ Unit).createdAt = 6 ∧
      (⟨"d2", "t2", (), none, 6⟩ : Doc ℚ Unit).embedding = ([(7 : ℚ)][1]?)) :=
  ⟨(updateBatch_preserves [⟨"d1", "t1", (), none, 5⟩, ⟨"d2", "t2", (), some 3, 6⟩] [7]).1,
   (updateBatch_preserves [⟨"d1", "t1", (), none, 5⟩, ⟨"d2", "t2", (), some 3, 6⟩] [7]).2
     1 ⟨"d2", "t2", (), some 3, 6⟩ ⟨"d2", "t2", (), none, 6⟩ (by decide) (by decide)⟩

/-! ## Claim C9 — serialization round trip -/

theorem mapSet_fresh {ns : List (Node α)} {n : Node α}
    (h : ∀ m ∈ ns, m.id ≠ n.id) : mapSet ns n = ns ++ [n] := by
  rw [mapSet, if_neg]
  intro hc
  rw [List.any_eq_true] at hc
  rcases hc with ⟨m, hm, hid⟩
  exact h m hm (by simpa using hid)

theorem foldl_mapSet_fresh :
    ∀ (l acc : List (Node α)),
      ((acc ++ l).map (fun n => n.id)).Nodup →
      l.foldl mapSet acc = acc ++ l := by
  intro l
  induction l with
  | nil => intro acc _; simp
  | cons n rest ih =>
    intro acc hnd
    rw [List.map_append, List.nodup_append] at hnd
    rcases hnd with ⟨hnd1, hnd2, hdisj⟩
    have hfresh : ∀ m ∈ acc, m.id ≠ n.id := by
      intro m hm heq
      exact hdisj (List.mem_map_of_mem _ hm) (by simp [heq])
    rw [List.foldl_cons, mapSet_fresh hfresh]
    have hnd3 : (((acc ++ [n]) ++ rest).map (fun n => n.id)).Nodup := by
      simp only [List.append_assoc, List.singleton_append]
      rw [List.map_append, List.nodup_append]
      exact ⟨hnd1, hnd2, hdisj⟩
    rw [ih (acc ++ [n]) hnd3]
    simp

/-- **C9.** `toJSON (fromJSON (toJSON g)) = toJSON g` for every graph a
live `HNSWIndex` can hold: the constructor invariant makes all four
scalar parameters non-zero (`x || default` never yields `0`), and a JS
`Map` never holds duplicate ids. -/
theorem toJSON_fromJSON_roundtrip (invLog : Nat → ℚ) (g : Graph α)
    (hM : g.params.M ≠ 0) (hefC : g.params.efConstruction ≠ 0)
    (hefS : g.params.efSearch ≠ 0) (hlm : g.params.levelMultiplier ≠ 0)
    (hnd : (g.nodes.map (fun n => n.id)).Nodup) :
    toJSON (fromJSON invLog (toJSON g)) = toJSON g := by
  have hnodes : (fromJSON invLog (toJSON g)).nodes = g.nodes := by
    show ((toJSON g).nodes.foldl
      (fun ns nd => mapSet ns ⟨nd.id, nd.vector, nd.level, nd.neighbors⟩) []) = g.nodes
    have hmap : (toJSON g).nodes = g.nodes.map
        (fun n => (⟨n.id, n.vector, n.level, n.neighbors⟩ : NodeJson α)) := rfl
    rw [hmap, List.foldl_map]
    have hbody : (fun (ns : List (Node α)) (n : Node α) =>
        mapSet ns ⟨(⟨n.id, n.vector, n.level, n.neighbors⟩ : NodeJson α).id,
          (⟨n.id, n.vector, n.level, n.neighbors⟩ : NodeJson α).vector,
          (⟨n.id, n.vector, n.level, n.neighbors⟩ : NodeJson α).level,
          (⟨n.id, n.vector, n.level, n.neighbors⟩ : NodeJson α).neighbors⟩) =
        fun ns n => mapSet ns n := by
      funext ns n
      rfl
    rw [hbody]
    simpa using foldl_mapSet_fresh g.nodes [] (by simpa using hnd)
  have hparams : (fromJSON invLog (toJSON g)).params = g.params := by
    show mkParams invLog g.params.M g.params.efConstruction
      g.params.efSearch g.params.levelMultiplier = g.params
    rw [mkParams]
    simp only [if_neg hM, if_neg hefC, if_neg hefS, if_neg hlm]
  have hml : (fromJSON invLog (toJSON g)).maxLevel = g.maxLevel := rfl
  have hep : (fromJSON invLog (toJSON g)).entryPointId = g.entryPointId := rfl
  show (⟨(fromJSON invLog (toJSON g)).params.M,
    (fromJSON invLog (toJSON g)).params.efConstruction,
    (fromJSON invLog (toJSON g)).params.efSearch,
    (fromJSON invLog (toJSON g)).params.levelMultiplier,
    (fromJSON invLog (toJSON g)).maxLevel,
    (fromJSON invLog (toJSON g)).entryPointId,
    (fromJSON invLog (toJSON g)).nodes.map
      (fun n => ⟨n.id, n.vector, n.level, n.neighbors⟩)⟩ : GraphJson α) = toJSON g
  rw [hparams, hml, hep, hnodes]
  rfl

/-- Witness for C9 at a concrete two-node graph. -/
theorem toJSON_fromJSON_roundtrip_witness :
    toJSON (fromJSON (fun m => (m : ℚ) + 1) (toJSON gTwo)) = toJSON gTwo :=
  toJSON_fromJSON_roundtrip (fun m => (m : ℚ) + 1) gTwo (by decide) (by decide)
    (by decide) (by decide) (by decide)

/-! ## Claim C7 — stop halts the batch loop; restart reprocesses all -/

theorem updateBatch_map_id {Emb Meta : Type} :
    ∀ (docs : List (Doc Emb Meta)) (embeds : List Emb),
      (updateBatch docs embeds).map (fun d => d.id) = docs.map (fun d => d.id) := by
  intro docs
  induction docs with
  | nil => intro embeds; rfl
  | cons d ds ih =>
    intro embeds
    cases embeds with
    | nil => simp [updateBatch, ih []]
    | cons e es => simp [updateBatch, ih es]

theorem migLoop_no_stop {Emb Meta : Type} (embedBatch : List String → List Emb)
    (B : Nat) (hB : 0 < B) :
    ∀ (fuel : Nat) (remaining : List (Doc Emb Meta)) (b pc : Nat)
      (st : MigStatus) (acc : List (Doc Emb Meta)),
      remaining.length ≤ fuel → remaining ≠ [] →
      (migLoop embedBatch B (fun _ => false) fuel remaining b pc st acc).1.processed
          = pc + remaining.length ∧
      (migLoop embedBatch B (fun _ => false) fuel remaining b pc st acc).1.total
          = st.total ∧
      (migLoop embedBatch B (fun _ => false) fuel remaining b pc st acc).1.isComplete
          = st.isComplete ∧
      (migLoop embedBatch B (fun _ => false) fuel remaining b pc st acc).2.1.map
          (fun d => d.id)
          = acc.map (fun d => d.id) ++ remaining.map (fun d => d.id) := by
  intro fuel
  induction fuel with
  | zero =>
    intro remaining b pc st acc hlen hne
    interval_cases hl : remaining.length
    · exact absurd (List.length_eq_zero.mp hl) hne
  | succ fuel ih =>
    intro remaining b pc st acc hlen hne
    match remaining, hne with
    | d :: rest, _ =>
      rw [migLoop]
      simp only [if_neg (by simp : ¬ (false = true))]
      by_cases hdrop : (d :: rest).drop B = []
      · have hdlen : (d :: rest).length ≤ B := by
          have hld := List.length_drop B (d :: rest)
          rw [hdrop] at hld
          simp only [List.length_nil] at hld
          omega
        have htake : (d :: rest).take B = d :: rest := List.take_of_length_le hdlen
        rw [hdrop]
        have hz : ∀ (b2 pc2 : Nat) (st2 : MigStatus) (acc2 : List (Doc Emb Meta)),
            migLoop embedBatch B (fun _ => false) fuel [] b2 pc2 st2 acc2 =
              (st2, acc2, b2) := by
          intro b2 pc2 st2 acc2
          cases fuel <;> rw [migLoop]
        rw [hz]
        refine ⟨?_, rfl, rfl, ?_⟩
        · simp [htake]
        · simp only [List.map_append, updateBatch_map_id, htake]
      · have hlen2 : ((d :: rest).drop B).length ≤ fuel := by
          rw [List.length_drop]
          simp only [List.length_cons] at hlen ⊢
          omega
        rcases ih ((d :: rest).drop B) (b + 1)
          (pc + ((d :: rest).take B).length) _ _ hlen2 hdrop with ⟨h1, h2, h3, h4⟩
        refine ⟨?_, h2.trans rfl, h3.trans rfl, ?_⟩
        · rw [h1]
          rw [List.length_take, List.length_drop]
          have hBlen : B < (d :: rest).length := by
            by_contra hc
            exact hdrop (List.drop_eq_nil_of_le (le_of_not_lt hc))
          omega
        · rw [h4]
          simp only [List.map_append, updateBatch_map_id, List.append_assoc]
          rw [← List.map_append, List.take_append_drop]



theorem migLoop_stops {Emb Meta : Type} (embedBatch : List String → List Emb)
    (B : Nat) (stop : Nat → Bool) (k : Nat) (hB : 0 < B)
    (hk : stop k = true) (hkfirst : ∀ j, j < k → stop j = false) :
    ∀ (fuel : Nat) (remaining : List (Doc Emb Meta)) (b pc : Nat)
      (st : MigStatus) (acc : List (Doc Emb Meta)),
      remaining.length ≤ fuel → b ≤ k →
      (k - b) * B < remaining.length →
      st.processed = pc →
      (migLoop embedBatch B stop fuel remaining b pc st acc).1.processed
          = pc + (k - b) * B ∧
      (migLoop embedBatch B stop fuel remaining b pc st acc).1.total = st.total ∧
      (migLoop embedBatch B stop fuel remaining b pc st acc).1.isComplete
          = st.isComplete ∧
      (migLoop embedBatch B stop fuel remaining b pc st acc).2.1.map (fun d => d.id)
          = acc.map (fun d => d.id) ++
            (remaining.take ((k - b) * B)).map (fun d => d.id) ∧
      (migLoop embedBatch B stop fuel remaining b pc st acc).2.2 = k := by
  intro fuel
  induction fuel with
  | zero =>
    intro remaining b pc st acc hlen hbk hlt hsp
    omega
  | succ fuel ih =>
    intro remaining b pc st acc hlen hbk hlt hsp
    match remaining with
    | [] => simp at hlt
    | d :: rest =>
      by_cases hbkeq : b = k
      · subst hbkeq
        rw [migLoop, if_pos hk]
        refine ⟨by simpa using hsp, rfl, rfl, by simp, rfl⟩
      · have hblt : b < k := lt_of_le_of_ne hbk hbkeq
        have hsub : k - b = (k - (b + 1)) + 1 := by omega
        have hexp : (k - b) * B = (k - (b + 1)) * B + B := by
          rw [hsub, Nat.add_mul, Nat.one_mul]
        have hBlen : B < (d :: rest).length := by
          have h1 : B ≤ (k - b) * B := by
            rw [hexp]
            omega
          omega
        rw [migLoop, if_neg (by simp [hkfirst b hblt])]
        simp only []
        have htakelen : ((d :: rest).take B).length = B := by
          rw [List.length_take]
          omega
        have hlen2 : ((d :: rest).drop B).length ≤ fuel := by
          rw [List.length_drop]
          omega
        have hlt2 : (k - (b + 1)) * B < ((d :: rest).drop B).length := by
          rw [List.length_drop]
          set t := (k - (b + 1)) * B with ht
          omega
        rcases ih ((d :: rest).drop B) (b + 1) (pc + ((d :: rest).take B).length)
          (({ st with
              processed := pc + ((d :: rest).take B).length
              lastProcessedId :=
                lastIdOr ((d :: rest).take B) st.lastProcessedId } : MigStatus))
          (acc ++ updateBatch ((d :: rest).take B)
            (embedBatch (((d :: rest).take B).map (fun d2 => d2.text))))
          hlen2 hblt hlt2 rfl with ⟨h1, h2, h3, h4, h5⟩
        refine ⟨?_, h2.trans rfl, h3.trans rfl, ?_, h5⟩
        · rw [h1, htakelen, hexp]
          omega
        · rw [h4]
          simp only [List.map_append, updateBatch_map_id, List.append_assoc]
          have hsplit : (d :: rest).take ((k - b) * B) =
              (d :: rest).take B ++ ((d :: rest).drop B).take ((k - (b + 1)) * B) := by
            rw [hexp, Nat.add_comm, List.take_add]
          rw [hsplit, List.map_append]


/-- **C7.** Once `stop` is signaled (first observed at the check before
batch `k`, mid-run), the started migration processes no further batch:
the documents handed to `indexDocuments` are exactly the first `k`
batches, `processed` stays at that count, and `isComplete` is never set
for that run; a subsequent `start` with the signal cleared re-processes
every document from the beginning and completes. -/
theorem migration_stop_and_restart {Emb Meta : Type}
    (embedBatch : List String → List Emb) (docs : List (Doc Emb Meta))
    (B k : Nat) (stop : Nat → Bool) (hB : 0 < B)
    (hk : stop k = true) (hkfirst : ∀ j, j < k → stop j = false)
    (hmid : k * B < docs.length) :
    ∀ (st1 : MigStatus) (acc1 : List (Doc Emb Meta)),
      migStart embedBatch docs B stop ⟨0, 0, none, false⟩ = (st1, acc1) →
      st1.processed = k * B ∧ st1.isComplete = false ∧
      st1.total = docs.length ∧
      acc1.map (fun d => d.id) = (docs.take (k * B)).map (fun d => d.id) ∧
      ∀ (st2 : MigStatus) (acc2 : List (Doc Emb Meta)),
        migStart embedBatch docs B (fun _ => false) st1 = (st2, acc2) →
        st2.processed = docs.length ∧ st2.isComplete = true ∧
        acc2.map (fun d => d.id) = docs.map (fun d => d.id) := by
  intro st1 acc1 h1
  have hml := migLoop_stops embedBatch B stop k hB hk hkfirst
    (docs.length + 1) docs 0 0 ⟨docs.length, 0, none, false⟩ []
    (by omega) (Nat.zero_le k) (by simpa using hmid) rfl
  rcases hml with ⟨hp, ht, hc, hids, hexit⟩
  rw [migStart] at h1
  simp only [] at h1
  rw [hexit, if_pos hk] at h1
  cases h1
  refine ⟨by simpa using hp, by simpa using hc, by simpa using ht,
    by simpa using hids, ?_⟩
  intro st2 acc2 h2
  have hdocs : docs ≠ [] := by
    intro hd
    rw [hd] at hmid
    simp at hmid
  have hml2 := migLoop_no_stop embedBatch B hB (docs.length + 1) docs 0 0
    (({ (migLoop embedBatch B stop (docs.length + 1) docs 0 0
          ⟨docs.length, 0, none, false⟩ []).1 with
        total := docs.length } : MigStatus))
    [] (by omega) hdocs
  rcases hml2 with ⟨hp2, ht2, hc2, hids2⟩
  rw [migStart] at h2
  simp only [] at h2
  rw [if_neg (by simp)] at h2
  cases h2
  refine ⟨?_, rfl, by simpa using hids2⟩
  show (migLoop embedBatch B (fun _ => false) (docs.length + 1) docs 0 0 _ []).1.processed
    = docs.length
  rw [hp2]
  exact Nat.zero_add _


/-- Concrete migration corpus for the C7 witness. -/
def docsW : List (Doc ℚ Unit) :=
  [⟨"d1", "t1", (), none, 1⟩, ⟨"d2", "t2", (), none, 2⟩,
   ⟨"d3", "t3", (), none, 3⟩]

/-- A constant-vector batch embedder for the C7 witness. -/
def embW : List String → List ℚ := fun ts => ts.map (fun _ => 7)

/-- `shouldStop` first observed at the check before batch 2. -/
def stopW : Nat → Bool := fun b => decide (2 ≤ b)

/-- Witness for C7: migrating three documents with batch size 1 and a
stop signal observed before batch 2 processes exactly two documents and
stays incomplete; the restarted run re-processes all three and
completes. -/
theorem migration_stop_and_restart_witness :
    (⟨3, 2, some "d2", false⟩ : MigStatus).processed = 2 * 1 ∧
    (⟨3, 2, some "d2", false⟩ : MigStatus).isComplete = false ∧
    (⟨3, 2, some "d2", false⟩ : MigStatus).total = docsW.length ∧
    ([⟨"d1", "t1", (), some 7, 1⟩, ⟨"d2", "t2", (), some 7, 2⟩] :
        List (Doc ℚ Unit)).map (fun d => d.id) =
      (docsW.take (2 * 1)).map (fun d => d.id) ∧
    ((⟨3, 3, some "d3", true⟩ : MigStatus).processed = docsW.length ∧
     (⟨3, 3, some "d3", true⟩ : MigStatus).isComplete = true ∧
     ([⟨"d1", "t1", (), some 7, 1⟩, ⟨"d2", "t2", (), some 7, 2⟩,
       ⟨"d3", "t3", (), some 7, 3⟩] :
         List (Doc ℚ Unit)).map (fun d => d.id) = docsW.map (fun d => d.id)) := by
  have h := migration_stop_and_restart embW docsW 1 2 stopW (by decide)
    (by decide) (by decide) (by decide)
    ⟨3, 2, some "d2", false⟩
    [⟨"d1", "t1", (), some 7, 1⟩, ⟨"d2", "t2", (), some 7, 2⟩]
    (by decide)
  exact ⟨h.1, h.2.1, h.2.2.1, h.2.2.2.1,
    h.2.2.2.2 ⟨3, 3, some "d3", true⟩
      [⟨"d1", "t1", (), some 7, 1⟩, ⟨"d2", "t2", (), some 7, 2⟩,
       ⟨"d3", "t3", (), some 7, 3⟩] (by decide)⟩

/-! ## Claim C4 — k larger than the corpus

The claim fails on disconnected graphs (and would also fail when the
corpus exceeds `efSearch`): `searchLayer` only ever visits nodes
reachable from its entry on layer 0.  The amended statement adds the
reachability and beam-width hypotheses. -/

/-- Layer-0 adjacency: `y` occurs in `x`'s layer-0 neighbor list. -/
def nbr0 (g : Graph α) (x y : String) : Prop :=
  ∃ n, g.find? x = some n ∧ ∃ lst, n.neighbors[0]? = some lst ∧ y ∈ lst

/-- Reachability along layer-0 edges. -/
inductive Reach0 (g : Graph α) : String → String → Prop where
  | refl (x : String) : Reach0 g x x
  | tail {x y z : String} : Reach0 g x y → nbr0 g y z → Reach0 g x z

/-- No dangling neighbor ids anywhere in the graph. -/
def NoDangling (g : Graph α) : Prop :=
  ∀ n ∈ g.nodes, ∀ lst ∈ n.neighbors, ∀ x ∈ lst, x ∈ g.nodeIds

/-- Every node's `neighbors` array has exactly `level + 1` entries, as
`addPoint` creates it. -/
def LayersComplete (g : Graph α) : Prop :=
  ∀ n ∈ g.nodes, n.neighbors.length = n.level + 1

/-- A node listed on layer `l` has level at least `l`. -/
def LevelsMatch (g : Graph α) : Prop :=
  ∀ n ∈ g.nodes, ∀ l : Nat, ∀ lst, n.neighbors[l]? = some lst →
    ∀ x ∈ lst, ∀ m, g.find? x = some m → l ≤ m.level

theorem find?_of_mem_nodeIds {g : Graph α} {x : String}
    (h : x ∈ g.nodeIds) : ∃ n, g.find? x = some n ∧ n ∈ g.nodes ∧ n.id = x := by
  rcases find?_eq_some_iff.mpr h with ⟨n, hn⟩
  exact ⟨n, hn, (find?_mem hn).1, (find?_mem hn).2⟩

theorem mem_nodeIds_of_find? {g : Graph α} {x : String} {n : Node α}
    (h : g.find? x = some n) : x ∈ g.nodeIds :=
  find?_eq_some_iff.mp ⟨n, h⟩

theorem reach0_mem {g : Graph α} (hw2 : NoDangling g) {s x : String}
    (h : Reach0 g s x) (hs : s ∈ g.nodeIds) : x ∈ g.nodeIds := by
  induction h with
  | refl => exact hs
  | tail hr hn ih =>
    rcases hn with ⟨n, hfind, lst, hlst, hy⟩
    exact hw2 n (find?_mem hfind).1 lst (List.getElem?_mem hlst) _ hy

theorem reach0_closed {g : Graph α} {vis : List String}
    (hcl : ∀ v ∈ vis, ∀ y, nbr0 g v y → y ∈ vis) {s x : String}
    (h : Reach0 g s x) (hs : s ∈ vis) : x ∈ vis := by
  induction h with
  | refl => exact hs
  | tail hr hn ih => exact hcl _ ih _ hn

/-- Strictly fewer list elements satisfy a strictly stronger predicate. -/
theorem length_filter_lt {β : Type _} {l : List β} {p q : β → Bool}
    (hpq : ∀ x, p x = true → q x = true) {w : β} (hw : w ∈ l)
    (hqw : q w = true) (hpw : p w = false) :
    (l.filter p).length < (l.filter q).length := by
  have hsub := List.monotone_filter_right l hpq
  rcases lt_or_ge (l.filter p).length (l.filter q).length with h | h
  · exact h
  · exfalso
    have heq := hsub.eq_of_length_le h
    have hwq : w ∈ l.filter q := List.mem_filter.mpr ⟨hw, hqw⟩
    rw [← heq] at hwq
    have := (List.mem_filter.mp hwq).2
    rw [hpw] at this
    cases this

/-- `bestNeighbor` succeeds on a fully resolvable list and returns a
strictly better node from that list. -/
theorem bestNeighbor_ok {g : Graph α} {q : α} :
    ∀ (nbrs : List String) (best : ℚ),
      (∀ x ∈ nbrs, x ∈ g.nodeIds) →
      ∃ r, bestNeighbor dist g q nbrs best = .ok r ∧
        ∀ n d, r = some (n, d) →
          (∃ x ∈ nbrs, g.find? x = some n) ∧ d = dist q n.vector ∧ best < d := by
  intro nbrs
  induction nbrs with
  | nil =>
    intro best _
    exact ⟨none, rfl, by intro n d h; cases h⟩
  | cons m rest ih =>
    intro best hall
    rcases find?_of_mem_nodeIds (hall m (by simp)) with ⟨nm, hfind, _, _⟩
    have hrest : ∀ x ∈ rest, x ∈ g.nodeIds := fun x hx => hall x (by simp [hx])
    by_cases hbd : best < dist q nm.vector
    · rcases ih (dist q nm.vector) hrest with ⟨r, hr, hrprop⟩
      cases r with
      | none =>
        refine ⟨some (nm, dist q nm.vector), ?_, ?_⟩
        · rw [bestNeighbor, hfind]
          simp only []
          rw [if_pos hbd, hr]
        · intro n d h
          cases h
          exact ⟨⟨m, by simp, hfind⟩, rfl, hbd⟩
      | some r2 =>
        refine ⟨some r2, ?_, ?_⟩
        · rw [bestNeighbor, hfind]
          simp only []
          rw [if_pos hbd, hr]
        · intro n d h
          cases h
          rcases hrprop n d rfl with ⟨⟨x, hx, hfx⟩, hd, hbest⟩
          exact ⟨⟨x, by simp [hx], hfx⟩, hd, lt_trans hbd hbest⟩
    · rcases ih best hrest with ⟨r, hr, hrprop⟩
      refine ⟨r, ?_, ?_⟩
      · rw [bestNeighbor, hfind]
        simp only []
        rw [if_neg hbd, hr]
      · intro n d h
        rcases hrprop n d h with ⟨⟨x, hx, hfx⟩, hd, hbest⟩
        exact ⟨⟨x, by simp [hx], hfx⟩, hd, hbest⟩


/-- The one-layer greedy hill-climb terminates within the fuel the
wrapper provides and lands on a node of level at least `l`. -/
theorem climbLoop_ok {g : Graph α} {q : α} {l : Nat}
    (hw2 : NoDangling g) (hw3 : LayersComplete g) (hw4 : LevelsMatch g) :
    ∀ (fuel : Nat) (cur : Node α) (curScore : ℚ),
      cur ∈ g.nodes → l ≤ cur.level → curScore = dist q cur.vector →
      (g.nodes.filter (fun n => curScore < dist q n.vector)).length < fuel →
      ∃ cur2 : Node α × ℚ,
        climbLoop dist g q l fuel (cur, curScore) = .ok cur2 ∧
        cur2.1 ∈ g.nodes ∧ l ≤ cur2.1.level ∧ cur2.2 = dist q cur2.1.vector := by
  intro fuel
  induction fuel with
  | zero =>
    intro cur curScore _ _ _ hlt
    omega
  | succ fuel ih =>
    intro cur curScore hcur hlev hsc hlt
    have hlen : l < cur.neighbors.length := by
      rw [hw3 cur hcur]
      omega
    have hnbrs : cur.neighbors[l]? = some (cur.neighbors[l]) :=
      List.getElem?_eq_getElem hlen
    have hres : ∀ x ∈ cur.neighbors[l], x ∈ g.nodeIds :=
      fun x hx => hw2 cur hcur _ (List.getElem?_mem hnbrs) x hx
    rcases bestNeighbor_ok dist (cur.neighbors[l]) curScore hres with ⟨r, hr, hrp⟩
    cases r with
    | none =>
      refine ⟨(cur, curScore), ?_, hcur, hlev, hsc⟩
      rw [climbLoop, hnbrs]
      simp only []
      rw [hr]
    | some r2 =>
      rcases r2 with ⟨n, d⟩
      rcases hrp n d rfl with ⟨⟨x, hx, hfx⟩, hd, hbetter⟩
      have hnid : n ∈ g.nodes := (find?_mem hfx).1
      have hnl : l ≤ n.level := hw4 cur hcur l _ hnbrs x hx n hfx
      have hmeas :
          (g.nodes.filter (fun m => d < dist q m.vector)).length <
          (g.nodes.filter (fun m => curScore < dist q m.vector)).length := by
        refine length_filter_lt ?_ hnid ?_ ?_
        · intro m hm
          simp only [decide_eq_true_eq] at hm ⊢
          exact lt_trans hbetter hm
        · simp only [decide_eq_true_eq]
          rw [← hd]
          exact hbetter
        · simp only [decide_eq_false_iff_not, ← hd]
          exact lt_irrefl d
      rcases ih n d hnid hnl hd (by omega) with ⟨cur2, hc2, hm2, hl2, hs2⟩
      refine ⟨cur2, ?_, hm2, hl2, hs2⟩
      rw [climbLoop, hnbrs]
      simp only []
      rw [hr]
      simp only []
      rw [hc2]

/-- The multi-layer descent of `search` / `addPoint` succeeds on
well-formed graphs whenever the layer list is descending and starts at
or below the entry's level. -/
theorem climbLayers_ok {g : Graph α} {q : α}
    (hw2 : NoDangling g) (hw3 : LayersComplete g) (hw4 : LevelsMatch g) :
    ∀ (layers : List Nat) (cur : Node α) (curScore : ℚ),
      cur ∈ g.nodes → curScore = dist q cur.vector →
      (∀ x ∈ layers, x ≤ cur.level) →
      layers.Pairwise (fun a b => b ≤ a) →
      ∃ cur2 : Node α × ℚ,
        climbLayers dist g q layers (cur, curScore) = .ok cur2 ∧
        cur2.1 ∈ g.nodes ∧ cur2.2 = dist q cur2.1.vector := by
  intro layers
  induction layers with
  | nil =>
    intro cur curScore hcur hsc _ _
    exact ⟨(cur, curScore), rfl, hcur, hsc⟩
  | cons l rest ih =>
    intro cur curScore hcur hsc hmem hpw
    have hfuel : (g.nodes.filter (fun n => curScore < dist q n.vector)).length <
        g.nodes.length + 1 :=
      lt_of_le_of_lt (List.length_filter_le _ _) (by omega)
    rcases climbLoop_ok dist hw2 hw3 hw4 (g.nodes.length + 1) cur curScore hcur
      (hmem l (by simp)) hsc hfuel with ⟨cur2, hc2, hm2, hl2, hs2⟩
    rcases List.pairwise_cons.mp hpw with ⟨hhead, hrest⟩
    rcases ih cur2.1 cur2.2 hm2 hs2
      (fun x hx => le_trans (hhead x hx) hl2) hrest with ⟨cur3, hc3, hm3, hs3⟩
    refine ⟨cur3, ?_, hm3, hs3⟩
    rw [climbLayers, hc2]
    simp only []
    rcases cur2 with ⟨n2, d2⟩
    exact hc3

theorem mem_layersDown {hi lo x : Nat} :
    x ∈ layersDown hi lo ↔ lo ≤ x ∧ x ≤ hi := by
  rw [layersDown, List.mem_reverse, List.mem_range'_1]
  omega

theorem layersDown_pairwise (hi lo : Nat) :
    (layersDown hi lo).Pairwise (fun a b => b ≤ a) := by
  rw [layersDown, List.pairwise_reverse]
  exact (List.pairwise_lt_range' lo _ 1).imp (fun h => le_of_lt h)


theorem length_eq_of_nodup_mem_iff {l1 l2 : List String}
    (h1 : l1.Nodup) (h2 : l2.Nodup) (hiff : ∀ x, x ∈ l1 ↔ x ∈ l2) :
    l1.length = l2.length := by
  have hfin : l1.toFinset = l2.toFinset := by
    apply Finset.ext
    intro x
    simp only [List.mem_toFinset]
    exact hiff x
  rw [← List.toFinset_card_of_nodup h1, ← List.toFinset_card_of_nodup h2, hfin]

/-- When `ef` is at least the number of nodes, the neighbor loop of
`searchLayer` pushes every fresh neighbor into both `C` and `W` and
never evicts, so `W` continues to mirror the visited set. -/
theorem processNeighbors_complete {g : Graph α} {q : α} {ef : Nat} {fs : ℚ}
    (hef : g.nodes.length ≤ ef) :
    ∀ (nbrs vis : List String) (C W : List Cand),
      (∀ x ∈ nbrs, x ∈ g.nodeIds) →
      vis.Nodup → (∀ x ∈ vis, x ∈ g.nodeIds) →
      (∀ c ∈ C, c.id ∈ vis) →
      (W.map (fun c => c.id)).Nodup →
      (∀ x, x ∈ W.map (fun c => c.id) ↔ x ∈ vis) →
      ∃ vis2 C2 W2,
        processNeighbors dist g q ef fs nbrs vis C W = .ok (vis2, C2, W2) ∧
        (∀ x ∈ vis, x ∈ vis2) ∧
        vis2.Nodup ∧
        (∀ x ∈ vis2, x ∈ g.nodeIds) ∧
        (∀ x ∈ nbrs, x ∈ vis2) ∧
        (∃ Cadd, C2 = C ++ Cadd) ∧
        (∀ x ∈ vis2, x ∉ vis → ∃ c2 ∈ C2, c2.id = x) ∧
        C2.length + vis.length = C.length + vis2.length ∧
        (W2.map (fun c => c.id)).Nodup ∧
        (∀ x, x ∈ W2.map (fun c => c.id) ↔ x ∈ vis2) ∧
        (∀ c2 ∈ C2, c2.id ∈ vis2) := by
  intro nbrs
  induction nbrs with
  | nil =>
    intro vis C W _ hvnd hvsub hCids hWnd hWiff
    refine ⟨vis, C, W, by rw [processNeighbors], fun x hx => hx, hvnd, hvsub,
      by simp, ⟨[], by simp⟩, ?_, by omega, hWnd, hWiff, hCids⟩
    intro x hx hnx
    exact absurd hx hnx
  | cons n rest ih =>
    intro vis C W hall hvnd hvsub hCids hWnd hWiff
    by_cases hnvis : n ∈ vis
    · rcases ih vis C W (fun x hx => hall x (by simp [hx])) hvnd hvsub hCids
        hWnd hWiff
        with ⟨vis2, C2, W2, hrun, h1, h2, h3, h4, h5, h6, h7, h8, h9, h10⟩
      refine ⟨vis2, C2, W2, ?_, h1, h2, h3, ?_, h5, h6, h7, h8, h9, h10⟩
      · rw [processNeighbors, if_pos hnvis]
        exact hrun
      · intro x hx
        rcases List.mem_cons.mp hx with rfl | hx
        · exact h1 x hnvis
        · exact h4 x hx
    · have hnid : n ∈ g.nodeIds := hall n (by simp)
      rcases find?_of_mem_nodeIds hnid with ⟨nn, hfind, _, _⟩
      have hvnd2 : (n :: vis).Nodup := List.nodup_cons.mpr ⟨hnvis, hvnd⟩
      have hvsub2 : ∀ x ∈ n :: vis, x ∈ g.nodeIds := by
        intro x hx
        rcases List.mem_cons.mp hx with rfl | hx
        · exact hnid
        · exact hvsub x hx
      have hvis_lt : vis.length < g.nodes.length := by
        have hle : (n :: vis).length ≤ g.nodeIds.length :=
          (List.Nodup.subperm hvnd2 (fun x hx => hvsub2 x hx)).length_le
        have : g.nodeIds.length = g.nodes.length := by
          simp [Graph.nodeIds]
        simp only [List.length_cons] at hle
        omega
      have hWlen : W.length = vis.length := by
        have := length_eq_of_nodup_mem_iff hWnd hvnd hWiff
        simpa using this
      have hWlt : W.length < ef := by omega
      set e : Cand := ⟨n, dist q nn.vector⟩ with he
      have hW1perm : ((sortDesc (W ++ [e])).map (fun c => c.id)).Perm
          (W.map (fun c => c.id) ++ [n]) := by
        have := (sortDesc_perm (W ++ [e])).map (fun c => c.id)
        simpa [he] using this
      have hW1nd : ((sortDesc (W ++ [e])).map (fun c => c.id)).Nodup := by
        refine hW1perm.nodup_iff.mpr ?_
        rw [List.nodup_append]
        refine ⟨hWnd, by simp, ?_⟩
        intro a ha hb
        rcases List.mem_singleton.mp hb with rfl
        exact hnvis ((hWiff a).mp ha)
      have hW1iff : ∀ x, x ∈ (sortDesc (W ++ [e])).map (fun c => c.id) ↔
          x ∈ n :: vis := by
        intro x
        rw [hW1perm.mem_iff]
        simp only [List.mem_append, List.mem_singleton, List.mem_cons]
        rw [hWiff x]
        tauto
      have hW1len : (sortDesc (W ++ [e])).length = W.length + 1 := by
        rw [sortDesc_length]
        simp
      have hnoev : ¬ ef < (sortDesc (W ++ [e])).length := by
        rw [hW1len]
        omega
      have hCids2 : ∀ c ∈ C ++ [e], c.id ∈ n :: vis := by
        intro c hc
        rcases List.mem_append.mp hc with hc | hc
        · exact List.mem_cons.mpr (Or.inr (hCids c hc))
        · rcases List.mem_singleton.mp hc with rfl
          simp [he]
      rcases ih (n :: vis) (C ++ [e]) (sortDesc (W ++ [e]))
        (fun x hx => hall x (by simp [hx])) hvnd2 hvsub2 hCids2 hW1nd hW1iff
        with ⟨vis2, C2, W2, hrun, h1, h2, h3, h4, h5, h6, h7, h8, h9, h10⟩
      refine ⟨vis2, C2, W2, ?_, ?_, h2, h3, ?_, ?_, ?_, ?_, h8, h9, h10⟩
      · rw [processNeighbors, if_neg hnvis, hfind]
        simp only []
        rw [if_pos (Or.inl hWlt), if_neg hnoev]
        exact hrun
      · intro x hx
        exact h1 x (by simp [hx])
      · intro x hx
        rcases List.mem_cons.mp hx with rfl | hx
        · exact h1 x (by simp)
        · exact h4 x hx
      · rcases h5 with ⟨Cadd, hC2⟩
        exact ⟨e :: Cadd, by simp [hC2]⟩
      · intro x hx hnx
        by_cases hxn : x = n
        · subst hxn
          rcases h5 with ⟨Cadd, hC2⟩
          exact ⟨e, by simp [hC2, he], rfl⟩
        · have hxnv : x ∉ n :: vis := by
            intro hc
            rcases List.mem_cons.mp hc with rfl | hc
            · exact hxn rfl
            · exact hnx hc
          exact h6 x hx hxnv
      · simp only [List.length_append, List.length_cons, List.length_nil] at h7 ⊢
        omega

/-- Main loop invariant for `searchLayer` on layer 0 with
`ef ≥ |nodes|`: the loop terminates with `W` holding exactly the
visited ids, which include everything reachable from any visited id. -/
theorem searchLayerLoop_complete {g : Graph α} {q : α} {ef : Nat}
    (hw2 : NoDangling g) (hw3 : LayersComplete g)
    (hef : g.nodes.length ≤ ef) :
    ∀ (fuel : Nat) (vis : List String) (C W : List Cand),
      vis.Nodup → (∀ x ∈ vis, x ∈ g.nodeIds) →
      (∀ c ∈ C, c.id ∈ vis) →
      (W.map (fun c => c.id)).Nodup →
      (∀ x, x ∈ W.map (fun c => c.id) ↔ x ∈ vis) →
      (∀ x ∈ vis, (∃ c ∈ C, c.id = x) ∨ (∀ y, nbr0 g x y → y ∈ vis)) →
      C.length + (g.nodes.length - vis.length) < fuel →
      ∃ res, searchLayerLoop dist g q ef 0 fuel vis C W = .ok res ∧
        (∀ s ∈ vis, ∀ x, Reach0 g s x → x ∈ res.map (fun c => c.id)) ∧
        (∀ x ∈ res.map (fun c => c.id), x ∈ g.nodeIds) ∧
        (res.map (fun c => c.id)).Nodup := by
  intro fuel
  induction fuel with
  | zero =>
    intro vis C W _ _ _ _ _ _ hfuel
    omega
  | succ fuel ih =>
    intro vis C W hvnd hvsub hCids hWnd hWiff hfront hfuel
    cases hs : sortDesc C with
    | nil =>
      have hC : C = [] := by
        have := sortDesc_length C
        rw [hs] at this
        exact List.eq_nil_of_length_eq_zero this.symm
      refine ⟨W, by rw [searchLayerLoop, hs], ?_, ?_, hWnd⟩
      · intro s hsv x hreach
        have hclosed : ∀ v ∈ vis, ∀ y, nbr0 g v y → y ∈ vis := by
          intro v hv y hnb
          rcases hfront v hv with ⟨c, hc, _⟩ | hcl
          · rw [hC] at hc
            cases hc
          · exact hcl y hnb
        exact (hWiff x).mpr (reach0_closed hclosed hreach hsv)
      · intro x hx
        exact hvsub x ((hWiff x).mp hx)
    | cons c Crest =>
      have hcC : c ∈ C := sortDesc_mem.mp (hs ▸ List.mem_cons_self c Crest)
      have hcvis : c.id ∈ vis := hCids c hcC
      have hWsperm : ((sortDesc W).map (fun c => c.id)).Perm
          (W.map (fun c => c.id)) := (sortDesc_perm W).map _
      have hWsnd : ((sortDesc W).map (fun c => c.id)).Nodup :=
        hWsperm.nodup_iff.mpr hWnd
      have hWsiff : ∀ x, x ∈ (sortDesc W).map (fun c => c.id) ↔ x ∈ vis :=
        fun x => (hWsperm.mem_iff).trans (hWiff x)
      have hWne : sortDesc W ≠ [] := by
        intro hW
        have : c.id ∈ (sortDesc W).map (fun c => c.id) := (hWsiff c.id).mpr hcvis
        rw [hW] at this
        cases this
      obtain ⟨f, hlast⟩ : ∃ f, (sortDesc W).getLast? = some f := by
        cases hW : (sortDesc W).getLast? with
        | none => exact absurd (List.getLast?_eq_none_iff.mp hW) hWne
        | some f => exact ⟨f, rfl⟩
      have hvislen : vis.length ≤ g.nodes.length := by
        have hle := (List.Nodup.subperm hvnd (fun x hx => hvsub x hx)).length_le
        simpa [Graph.nodeIds] using hle
      have hWlen : (sortDesc W).length = vis.length := by
        have h1 := length_eq_of_nodup_mem_iff hWsnd hvnd hWsiff
        simpa using h1
      by_cases hbr : c.score < f.score ∧ ef ≤ (sortDesc W).length
      · -- the break fires only when every node is already in W
        have hall : ∀ x ∈ g.nodeIds, x ∈ vis := by
          have hlen2 : g.nodeIds.length ≤ vis.length := by
            have : g.nodeIds.length = g.nodes.length := by simp [Graph.nodeIds]
            omega
          have hperm := (List.Nodup.subperm hvnd
            (fun x hx => hvsub x hx)).perm_of_length_le hlen2
          intro x hx
          exact hperm.mem_iff.mpr hx
        refine ⟨sortDesc W, ?_, ?_, ?_, hWsnd⟩
        · rw [searchLayerLoop, hs]
          simp only []
          rw [hlast]
          simp only []
          rw [if_pos hbr]
        · intro s hsv x hreach
          exact (hWsiff x).mpr (hall x (reach0_mem hw2 hreach (hvsub s hsv)))
        · intro x hx
          exact hvsub x ((hWsiff x).mp hx)
      · rcases find?_of_mem_nodeIds (hvsub c.id hcvis) with ⟨cNode, hfc, hcm, _⟩
        have hlen0 : 0 < cNode.neighbors.length := by
          rw [hw3 cNode hcm]
          omega
        have hnb0 : cNode.neighbors[0]? = some (cNode.neighbors[0]) :=
          List.getElem?_eq_getElem hlen0
        have hnbsub : ∀ x ∈ cNode.neighbors[0], x ∈ g.nodeIds :=
          fun x hx => hw2 cNode hcm _ (List.getElem?_mem hnb0) x hx
        have hCrest : ∀ c2 ∈ Crest, c2.id ∈ vis := by
          intro c2 hc2
          exact hCids c2 (sortDesc_mem.mp (hs ▸ List.mem_cons_of_mem c hc2))
        rcases processNeighbors_complete dist hef (cNode.neighbors[0]) vis Crest
          (sortDesc W) hnbsub hvnd hvsub hCrest hWsnd hWsiff
          with ⟨vis2, C2, W2, hrun, p1, p2, p3, p4, p5, p6, p7, p8, p9, p10⟩
        have hfront2 : ∀ x ∈ vis2,
            (∃ c2 ∈ C2, c2.id = x) ∨ (∀ y, nbr0 g x y → y ∈ vis2) := by
          intro x hx
          by_cases hxv : x ∈ vis
          · rcases hfront x hxv with ⟨cOld, hcOld, hcOldid⟩ | hcl
            · have hcOldS : cOld ∈ sortDesc C := sortDesc_mem.mpr hcOld
              rw [hs] at hcOldS
              rcases List.mem_cons.mp hcOldS with rfl | hcOldS
              · right
                intro y hnb
                rcases hnb with ⟨n2, hn2, lst, hlst, hy⟩
                rw [← hcOldid] at hn2
                have he1 : some cNode = some n2 := hfc.symm.trans hn2
                cases he1
                have he2 : some (cNode.neighbors[0]) = some lst :=
                  hnb0.symm.trans hlst
                cases he2
                exact p4 y hy
              · left
                rcases p5 with ⟨Cadd, hC2⟩
                exact ⟨cOld, by simp [hC2, hcOldS], hcOldid⟩
            · right
              intro y hnb
              exact p1 y (hcl y hnb)
          · left
            exact p6 x hx hxv
        have hvis2len : vis2.length ≤ g.nodes.length := by
          have hle := (List.Nodup.subperm p2 (fun x hx => p3 x hx)).length_le
          simpa [Graph.nodeIds] using hle
        have hvissub : vis.length ≤ vis2.length :=
          (List.Nodup.subperm hvnd (fun x hx => p1 x hx)).length_le
        have hClen : C.length = Crest.length + 1 := by
          have := sortDesc_length C
          rw [hs] at this
          simpa using this.symm
        rcases ih vis2 C2 W2 p2 p3 p10 p8 p9 hfront2 (by omega)
          with ⟨res, hres, r1, r2, r3⟩
        refine ⟨res, ?_, ?_, r2, r3⟩
        · rw [searchLayerLoop, hs]
          simp only []
          rw [hlast]
          simp only []
          rw [if_neg hbr, hfc]
          simp only []
          rw [hnb0]
          simp only []
          rw [hrun]
          simp only []
          exact hres
        · intro s hsv x hreach
          exact r1 s (p1 s hsv) x hreach


theorem searchLayer_complete {g : Graph α} {q : α} {ef : Nat}
    (hw2 : NoDangling g) (hw3 : LayersComplete g)
    (hef : g.nodes.length ≤ ef) (entry : Node α) (hentry : entry ∈ g.nodes) :
    ∃ res, searchLayer dist g q entry ef 0 = .ok res ∧
      (∀ x, Reach0 g entry.id x → x ∈ res.map (fun c => c.id)) ∧
      (∀ x ∈ res.map (fun c => c.id), x ∈ g.nodeIds) ∧
      (res.map (fun c => c.id)).Nodup := by
  have heid : entry.id ∈ g.nodeIds := List.mem_map_of_mem _ hentry
  have hN : 1 ≤ g.nodes.length := List.length_pos.mpr (by
    intro hc
    rw [hc] at hentry
    cases hentry)
  rcases searchLayerLoop_complete dist hw2 hw3 hef (g.nodes.length + 2)
    [entry.id] [⟨entry.id, dist q entry.vector⟩] [⟨entry.id, dist q entry.vector⟩]
    (by simp) (by simpa using heid) (by simp)
    (by simp) (by simp)
    (by
      intro x hx
      have hxe : x = entry.id := List.mem_singleton.mp hx
      subst hxe
      exact Or.inl ⟨⟨entry.id, dist q entry.vector⟩, by simp, rfl⟩)
    (by simp; omega)
    with ⟨res, hrun, h1, h2, h3⟩
  exact ⟨res, hrun, fun x hr => h1 entry.id (by simp) x hr, h2, h3⟩

/-- **C4 (amended).** `search` returns the whole corpus for `k` at
least the corpus size, *provided* the graph is well-formed, every node
is reachable from every node along layer-0 edges, and `efSearch` is at
least the corpus size (the beam `W` holds at most `efSearch` entries,
and nodes outside the entry point's layer-0 component are never
visited). -/
theorem search_whole_corpus (dist : α → α → ℚ) (g : Graph α) (q : α) (k : Nat)
    (e : String) (ep : Node α)
    (_hnd : g.nodeIds.Nodup)
    (hw2 : NoDangling g) (hw3 : LayersComplete g) (hw4 : LevelsMatch g)
    (hent : g.entryPointId = some e)
    (hep : g.find? e = some ep)
    (heplev : ep.level = g.maxLevel)
    (hconn : ∀ s ∈ g.nodeIds, ∀ x ∈ g.nodeIds, Reach0 g s x)
    (hef : g.nodes.length ≤ g.params.efSearch)
    (hk : g.nodes.length ≤ k) :
    ∃ res, search dist g q k = .ok res ∧
      (∀ x ∈ g.nodeIds, x ∈ res.map (fun c => c.id)) := by
  have hepm : ep ∈ g.nodes := (find?_mem hep).1
  rcases climbLayers_ok dist hw2 hw3 hw4 (layersDown g.maxLevel 1) ep
    (dist q ep.vector) hepm rfl
    (by
      intro x hx
      rw [heplev]
      exact (mem_layersDown.mp hx).2)
    (layersDown_pairwise _ _)
    with ⟨cur2, hclimb, hcur2m, _⟩
  rcases searchLayer_complete dist hw2 hw3 hef cur2.1 hcur2m
    with ⟨res, hsl, h1, h2, h3⟩
  have hlen : res.length ≤ k := by
    have hsp := (List.Nodup.subperm h3 (fun x hx => h2 x hx)).length_le
    have : g.nodeIds.length = g.nodes.length := by simp [Graph.nodeIds]
    simp only [List.length_map] at hsp
    omega
  refine ⟨res, ?_, ?_⟩
  · rw [search, hent]
    simp only []
    rw [hep]
    simp only []
    rw [hclimb]
    simp only []
    rw [hsl]
    simp only []
    rw [List.take_of_length_le hlen]
  · intro x hx
    exact h1 x (hconn cur2.1.id (List.mem_map_of_mem _ hcur2m) x hx)

/-- **C4 counterexample.** Two stored nodes with no layer-0 edges: with
`k = 2 ≥` corpus size, `search` returns only the entry point — node
`"b"` is in the corpus but not in the result. -/
theorem search_not_whole_corpus_counterexample :
    gSplit.nodes.length = 2 ∧
    "b" ∈ gSplit.nodeIds ∧
    search distW gSplit 1 2 = .ok [⟨"a", 2⟩] ∧
    "b" ∉ ([⟨"a", (2 : ℚ)⟩] : List Cand).map (fun c => c.id) := by
  refine ⟨by decide, by decide, by decide, by decide⟩

/-- Witness for the amended C4 on a concrete strongly connected
two-node graph. -/
theorem search_whole_corpus_witness :
    ∃ res, search distW gTwo 4 2 = .ok res ∧
      (∀ x ∈ gTwo.nodeIds, x ∈ res.map (fun c => c.id)) := by
  refine search_whole_corpus distW gTwo 4 2 "a" ⟨"a", 2, 0, [["b"]]⟩
    (by decide) (by unfold NoDangling; decide) (by unfold LayersComplete; decide)
    ?_ (by decide) (by decide) (by decide)
    ?_ (by decide) (by decide)
  · intro n hn l lst hlst x hx m hm
    have hl : l < n.neighbors.length := by
      by_contra hc
      rw [List.getElem?_eq_none (le_of_not_lt hc)] at hlst
      cases hlst
    have hlen1 : n.neighbors.length = 1 := by
      fin_cases hn <;> decide
    have hl0 : l = 0 := by omega
    rw [hl0]
    exact Nat.zero_le _
  · intro s hs x hx
    have hsab : s = "a" ∨ s = "b" := by
      simpa [Graph.nodeIds, gTwo] using hs
    have hxab : x = "a" ∨ x = "b" := by
      simpa [Graph.nodeIds, gTwo] using hx
    have hab : nbr0 gTwo "a" "b" :=
      ⟨⟨"a", 2, 0, [["b"]]⟩, by decide, ["b"], by decide, by decide⟩
    have hba : nbr0 gTwo "b" "a" :=
      ⟨⟨"b", 5, 0, [["a"]]⟩, by decide, ["a"], by decide, by decide⟩
    rcases hsab with rfl | rfl <;> rcases hxab with rfl | rfl
    · exact Reach0.refl _
    · exact Reach0.tail (Reach0.refl _) hab
    · exact Reach0.tail (Reach0.refl _) hba
    · exact Reach0.refl _

end Vectoria
